import Mathlib

/-!
# Verification of the `fflag` argument parser against its specification

This file gives a shallow embedding, in Lean 4, of the core of the `fflag`
GNU/POSIX command-line parser:

* the path-compressed prefix trie over long option names
  (`pkg/trie/trie.go`: `TrieNode`, `Get`, `Add`),
* the argument classifier (`parse.go`: `ArgMask`, `parseSingleArg`),
* the cluster disambiguator and the parse engine
  (`parse.go`: `disambiguateCluster`, `stopParsing`, `parse`, `Parse`),
* the flag registry (`flagset.go`: `FlagSet`, `LookupShort`, `LookupLong`,
  `AddFlag`, `Failf`, `Reset`).

Go strings are modelled as `List Char` (the code walks strings rune by rune
via `FirstRune`; byte-level prefix tests on valid UTF-8 agree with rune-level
prefix tests because UTF-8 is self-synchronizing).  Go maps used by the code
(`map[rune]*TrieNode`, `map[rune]*Flag`, `map[string]*Flag`) are modelled as
association lists with the usual lookup/insert operations; the code never
iterates over these maps in a way that observes ordering.  Pointer sharing of
`*Flag` between the short dictionary and the trie is modelled by storing flag
records in a list and letting both dictionaries hold indices into it.

The current revision of `flag.go` (the `Flag` record with `Short`/`Long`
fields, `Set`, `Test`, `IsBool`, the mutex-claim check and the global POSIX
toggles) is not among the available sources — only its callers and tests are.
Definitions for those are marked `Modelled from the spec:` and follow the
specification's §4.4/§6 wording (cross-checked against the older `flag.go`
revisions that are available).
-/

set_option linter.unusedVariables false

namespace FflagProof

/-! ## Association lists (model of Go maps keyed by runes) -/

/-- Lookup in an association list, the model of `m[k]` on a Go map. -/
def lookupA {β : Type} (m : List (Char × β)) (c : Char) : Option β :=
  match m with
  | [] => none
  | (k, v) :: r => if k = c then some v else lookupA r c

/-- Insert/replace in an association list, the model of `m[k] = v` on a Go map. -/
def insertA {β : Type} (m : List (Char × β)) (c : Char) (v : β) : List (Char × β) :=
  match m with
  | [] => [(c, v)]
  | (k, w) :: r => if k = c then (c, v) :: r else (k, w) :: insertA r c v

@[simp] theorem lookupA_nil {β : Type} (c : Char) : lookupA ([] : List (Char × β)) c = none := rfl

@[simp] theorem lookupA_cons {β : Type} (k : Char) (v : β) (r : List (Char × β)) (c : Char) :
    lookupA ((k, v) :: r) c = if k = c then some v else lookupA r c := rfl

@[simp] theorem insertA_nil {β : Type} (c : Char) (v : β) :
    insertA ([] : List (Char × β)) c v = [(c, v)] := rfl

@[simp] theorem insertA_cons {β : Type} (k : Char) (w : β) (r : List (Char × β)) (c : Char) (v : β) :
    insertA ((k, w) :: r) c v = if k = c then (c, v) :: r else (k, w) :: insertA r c v := rfl

theorem lookupA_eq_none_iff {β : Type} (m : List (Char × β)) (c : Char) :
    lookupA m c = none ↔ c ∉ m.map Prod.fst := by
  induction m with
  | nil => simp
  | cons p r ih =>
    obtain ⟨k, v⟩ := p
    by_cases h : k = c
    · subst h
      simp
    · simp only [lookupA_cons, if_neg h, List.map_cons, List.mem_cons, ih]
      constructor
      · intro hc hor
        rcases hor with h1 | h2
        · exact h h1.symm
        · exact hc h2
      · intro hc
        exact fun h2 => hc (Or.inr h2)

theorem insertA_keys_of_not_mem {β : Type} (m : List (Char × β)) (c : Char) (v : β)
    (h : c ∉ m.map Prod.fst) : insertA m c v = m ++ [(c, v)] := by
  induction m with
  | nil => simp [insertA]
  | cons p r ih =>
    obtain ⟨k, w⟩ := p
    simp only [List.map_cons, List.mem_cons] at h
    push_neg at h
    simp [insertA, Ne.symm h.1, ih h.2]

theorem insertA_keys_of_lookup_some {β : Type} (m : List (Char × β)) (c : Char) (v w : β)
    (h : lookupA m c = some w) :
    ∃ pre post, m = pre ++ (c, w) :: post ∧ c ∉ pre.map Prod.fst ∧
      insertA m c v = pre ++ (c, v) :: post := by
  induction m with
  | nil => simp [lookupA] at h
  | cons p r ih =>
    obtain ⟨k, u⟩ := p
    by_cases hk : k = c
    · subst hk
      simp at h
      subst h
      refine ⟨[], r, by simp, by simp, by simp [insertA]⟩
    · simp only [lookupA_cons, if_neg hk] at h
      obtain ⟨pre, post, hm, hc, hins⟩ := ih h
      refine ⟨(k, u) :: pre, post, by simp [hm], ?_, by simp [insertA, hk, hins]⟩
      simp [hc, Ne.symm hk]

namespace trie

/-! ## The path-compressed prefix trie (`pkg/trie/trie.go`)

```go
type TrieNode[T any] struct {
    Item *T
    Tail string
    Nodes map[rune]*TrieNode[T]
}
```
-/

inductive TrieNode (V : Type) : Type where
  | mk (item : Option V) (tail : List Char) (nodes : List (Char × TrieNode V)) : TrieNode V

namespace TrieNode

variable {V : Type}

def item : TrieNode V → Option V
  | .mk i _ _ => i

def tail : TrieNode V → List Char
  | .mk _ t _ => t

def nodes : TrieNode V → List (Char × TrieNode V)
  | .mk _ _ n => n

@[simp] theorem item_mk (i : Option V) (t : List Char) (n : List (Char × TrieNode V)) :
    (TrieNode.mk i t n).item = i := rfl
@[simp] theorem tail_mk (i : Option V) (t : List Char) (n : List (Char × TrieNode V)) :
    (TrieNode.mk i t n).tail = t := rfl
@[simp] theorem nodes_mk (i : Option V) (t : List Char) (n : List (Char × TrieNode V)) :
    (TrieNode.mk i t n).nodes = n := rfl

/-- `NewTrie[T]()`: the empty trie. -/
def newTrie : TrieNode V := .mk none [] []

/-- `TrieNode.Get` from `pkg/trie/trie.go`.

```go
func (t *TrieNode[T]) Get(key string) (*T, error) {
    if len(key) == 0 && len(t.Nodes) == 0 { return t.Item, nil }
    if len(t.Tail) >= len(key) && t.Tail[:len(key)] == key { return t.Item, nil }
    r, tail := firstRune(key)
    if r == utf8.RuneError { panic("unexpected string error") }
    if node, ok := t.Nodes[r]; ok { return node.Get(tail) }
    return nil, nil
}
```

The returned `error` is always `nil` in the source, so the model returns just
`Option V`.  The `firstRune` panic cannot fire: when `key` is empty the second
`if` (with `t.Tail[:0] == ""`) has already returned; the corresponding dead
match arm below returns `none`. -/
def get : TrieNode V → List Char → Option V
  | .mk item tail nodes, key =>
    if key.isEmpty && nodes.isEmpty then item
    else if key.length ≤ tail.length ∧ tail.take key.length = key then item
    else
      match key with
      | [] => none
      | c :: rest =>
        match lookupA nodes c with
        | some node => node.get rest
        | none => none

/-- `TrieNode.Add` from `pkg/trie/trie.go`, which mutates the trie in place and
returns an `error`; the model returns the mutated trie plus a success bit
(`false` ↔ the Go `"duplicate key in trie"` error).

```go
func (t *TrieNode[T]) Add(key string, item *T) error {
    if len(key) == 0 {
        if t.Item == nil { t.Item = item; return nil }
        return fmt.Errorf("duplicate key in trie")
    }
    if len(t.Nodes) == 0 && len(t.Tail) == 0 && t.Item == nil {
        t.Tail = key; t.Item = item; return nil
    }
    if len(t.Tail) > 0 {
        tR, tTail := firstRune(t.Tail)
        t.Nodes[tR] = &TrieNode[T]{Item: t.Item, Tail: tTail, Nodes: ...{}}
        t.Item = nil; t.Tail = ""
    }
    r, tail := firstRune(key)
    if node, ok := t.Nodes[r]; ok { return node.Add(tail, item) }
    t.Nodes[r] = &TrieNode[T]{Item: item, Tail: tail, Nodes: ...{}}
    return nil
}
```
-/
def add : TrieNode V → List Char → V → TrieNode V × Bool
  | .mk item tail nodes, [], v =>
    match item with
    | none => (.mk (some v) tail nodes, true)
    | some _ => (.mk item tail nodes, false)
  | .mk item tail nodes, c :: rest, v =>
    if nodes.isEmpty && tail.isEmpty && item.isNone then
      (.mk (some v) (c :: rest) nodes, true)
    else
      -- push a nonempty compressed tail one level down
      let pushed : Option V × List Char × List (Char × TrieNode V) :=
        match tail with
        | [] => (item, [], nodes)
        | tc :: ts => (none, [], insertA nodes tc (.mk item ts []))
      match lookupA pushed.2.2 c with
      | some node =>
        let r := node.add rest v
        (.mk pushed.1 pushed.2.1 (insertA pushed.2.2 c r.1), r.2)
      | none =>
        (.mk pushed.1 pushed.2.1 (insertA pushed.2.2 c (.mk (some v) rest [])), true)

mutual
/-- The key/value pairs stored in a trie, in depth-first order.  A node with
`item = some v` stores the key `path ++ tail`, where `path` is the sequence of
child-map runes leading to the node. -/
def entries : TrieNode V → List (List Char × V)
  | .mk item tail nodes =>
    (match item with
     | some v => [(tail, v)]
     | none => []) ++ entriesL nodes

/-- The key/value pairs stored below a child map, each child key prefixed by
its rune. -/
def entriesL : List (Char × TrieNode V) → List (List Char × V)
  | [] => []
  | (c, t) :: r => (entries t).map (fun p => (c :: p.1, p.2)) ++ entriesL r
end


/-- The entry contributed by a node's own item: key `tail`.  (Auxiliary to
state `entries` equations in a rewrite-friendly form.) -/
def itemEntries (i : Option V) (tl : List Char) : List (List Char × V) :=
  match i with
  | some v => [(tl, v)]
  | none => []

@[simp] theorem itemEntries_none (tl : List Char) :
    itemEntries (none : Option V) tl = [] := rfl

@[simp] theorem itemEntries_some (v : V) (tl : List Char) :
    itemEntries (some v) tl = [(tl, v)] := rfl

theorem entries_mk (i : Option V) (t : List Char) (n : List (Char × TrieNode V)) :
    entries (TrieNode.mk i t n) = itemEntries i t ++ entriesL n := by
  rw [entries.eq_def]
  cases i <;> rfl

@[simp] theorem entriesL_nil : entriesL ([] : List (Char × TrieNode V)) = [] := by
  rw [entriesL.eq_def]

@[simp] theorem entriesL_cons (c : Char) (t : TrieNode V) (r : List (Char × TrieNode V)) :
    entriesL ((c, t) :: r) = (entries t).map (fun p => (c :: p.1, p.2)) ++ entriesL r := by
  rw [entriesL.eq_def]

theorem entriesL_append (a b : List (Char × TrieNode V)) :
    entriesL (a ++ b) = entriesL a ++ entriesL b := by
  induction a with
  | nil => simp
  | cons p r ih => obtain ⟨c, t⟩ := p; simp [ih]

/-- Every key stored below a child map is nonempty and starts with the rune of
one of the children. -/
theorem entriesL_key_shape {n : List (Char × TrieNode V)} {k : List Char} {v : V}
    (h : (k, v) ∈ entriesL n) :
    ∃ c u k', (c, u) ∈ n ∧ k = c :: k' ∧ (k', v) ∈ entries u := by
  induction n with
  | nil => simp at h
  | cons p r ih =>
    obtain ⟨c, t⟩ := p
    simp only [entriesL_cons, List.mem_append, List.mem_map] at h
    rcases h with ⟨⟨k', v'⟩, hm, he⟩ | h
    · obtain ⟨h1, h2⟩ := Prod.mk.injEq .. ▸ he
      exact ⟨c, t, k', by simp, h1.symm, by simpa [← h2] using hm⟩
    · obtain ⟨c', u, k', hm, hk, he⟩ := ih h
      exact ⟨c', u, k', by simp [hm], hk, he⟩

theorem mem_entriesL_of_mem {n : List (Char × TrieNode V)} {c : Char} {u : TrieNode V}
    (hm : (c, u) ∈ n) {k : List Char} {v : V} (he : (k, v) ∈ entries u) :
    (c :: k, v) ∈ entriesL n := by
  induction n with
  | nil => simp at hm
  | cons p r ih =>
    obtain ⟨c', t⟩ := p
    rcases List.mem_cons.mp hm with h | h
    · obtain ⟨h1, h2⟩ := Prod.mk.injEq .. ▸ h
      subst h1; subst h2
      exact List.mem_append_left _ (List.mem_map.mpr ⟨(k, v), he, rfl⟩)
    · exact List.mem_append_right _ (ih h)

theorem lookupA_eq_some_split {β : Type} {m : List (Char × β)} {c : Char} {u : β}
    (h : lookupA m c = some u) :
    ∃ pre post, m = pre ++ (c, u) :: post ∧ c ∉ pre.map Prod.fst := by
  induction m with
  | nil => simp [lookupA] at h
  | cons p r ih =>
    obtain ⟨k, w⟩ := p
    by_cases hk : k = c
    · subst hk
      simp at h
      subst h
      exact ⟨[], r, by simp, by simp⟩
    · simp only [lookupA_cons, if_neg hk] at h
      obtain ⟨pre, post, hm, hc⟩ := ih h
      exact ⟨(k, w) :: pre, post, by simp [hm], by simp [hc, Ne.symm hk]⟩

theorem mem_of_lookupA_eq_some {β : Type} {m : List (Char × β)} {c : Char} {u : β}
    (h : lookupA m c = some u) : (c, u) ∈ m := by
  obtain ⟨pre, post, hm, -⟩ := lookupA_eq_some_split h
  simp [hm]

/-- Well-formedness of tries produced by `Add` from the empty trie:
a node with a nonempty compressed tail is a leaf holding an item; a node with
no item of its own never holds exactly one key; child runes are distinct;
children are well-formed and hold at least one key. -/
inductive Wf : TrieNode V → Prop where
  | mk (item : Option V) (tail : List Char) (nodes : List (Char × TrieNode V))
      (htail : tail ≠ [] → nodes = [] ∧ item ≠ none)
      (hone : item = none → (entries (TrieNode.mk item tail nodes)).length ≠ 1)
      (hkeys : (nodes.map Prod.fst).Nodup)
      (hchild : ∀ c u, (c, u) ∈ nodes → Wf u)
      (hne : ∀ c u, (c, u) ∈ nodes → entries u ≠ []) : Wf (TrieNode.mk item tail nodes)

/-- The intended lookup semantics, expressed on the stored key/value list:
an exact key match wins; otherwise a query with exactly one stored
continuation resolves to it; otherwise there is no match. -/
def specLookup (es : List (List Char × V)) (P : List Char) : Option V :=
  match es.filter (fun p => p.1 == P) with
  | (_, v) :: _ => some v
  | [] =>
    match es.filter (fun p => P.isPrefixOf p.1) with
    | [(_, v)] => some v
    | _ => none

/-- The Go condition `len(t.Tail) >= len(key) && t.Tail[:len(key)] == key`
says exactly that `key` is a prefix of `t.Tail`. -/
theorem tail_cond_iff_pref (key tl : List Char) :
    (key.length ≤ tl.length ∧ tl.take key.length = key) ↔ key <+: tl := by
  constructor
  · rintro ⟨-, h2⟩
    exact h2 ▸ List.take_prefix _ _
  · intro h
    exact ⟨h.length_le, ((List.prefix_iff_eq_take.mp h).symm)⟩

theorem get_nil (t : TrieNode V) : t.get [] = t.item := by
  obtain ⟨i, tl, n⟩ := t
  simp [TrieNode.get]

theorem get_cons_eq (i : Option V) (tl : List Char) (n : List (Char × TrieNode V))
    (c : Char) (rest : List Char) :
    (TrieNode.mk i tl n).get (c :: rest) =
      if (c :: rest).length ≤ tl.length ∧ tl.take (c :: rest).length = (c :: rest) then i
      else match lookupA n c with
        | some node => node.get rest
        | none => none := rfl

theorem get_cons_pref {i : Option V} {tl : List Char} {n : List (Char × TrieNode V)}
    {c : Char} {rest : List Char} (hp : (c :: rest) <+: tl) :
    (TrieNode.mk i tl n).get (c :: rest) = i := by
  rw [get_cons_eq, if_pos ((tail_cond_iff_pref _ _).mpr hp)]

theorem get_cons_lookup_some {i : Option V} {tl : List Char} {n : List (Char × TrieNode V)}
    {c : Char} {rest : List Char} {u : TrieNode V}
    (hnp : ¬(c :: rest) <+: tl) (hl : lookupA n c = some u) :
    (TrieNode.mk i tl n).get (c :: rest) = u.get rest := by
  rw [get_cons_eq, if_neg (fun h => hnp ((tail_cond_iff_pref _ _).mp h)), hl]

theorem get_cons_lookup_none {i : Option V} {tl : List Char} {n : List (Char × TrieNode V)}
    {c : Char} {rest : List Char}
    (hnp : ¬(c :: rest) <+: tl) (hl : lookupA n c = none) :
    (TrieNode.mk i tl n).get (c :: rest) = none := by
  rw [get_cons_eq, if_neg (fun h => hnp ((tail_cond_iff_pref _ _).mp h)), hl]

@[simp] theorem cons_isPrefixOf_nil (a : Char) (as : List Char) :
    (a :: as).isPrefixOf ([] : List Char) = false := rfl

theorem isPrefixOf_cons_eq (a b : Char) (as bs : List Char) :
    (a :: as).isPrefixOf (b :: bs) = (a == b && as.isPrefixOf bs) := rfl

theorem filter_entriesL_eq_nil {n : List (Char × TrieNode V)} {c : Char}
    (hc : c ∉ n.map Prod.fst) (pred : List Char × V → Bool)
    (hpred : ∀ k v, pred (k, v) = true → ∃ k', k = c :: k') :
    (entriesL n).filter pred = [] := by
  apply List.filter_eq_nil_iff.mpr
  rintro ⟨k, v⟩ hm hp
  obtain ⟨k', hk⟩ := hpred k v hp
  obtain ⟨c', u, k'', hmem, hshape, -⟩ := entriesL_key_shape hm
  rw [hk] at hshape
  have hcc : c = c' := (List.cons.injEq .. ▸ hshape).1
  exact hc (List.mem_map.mpr ⟨(c', u), hmem, hcc.symm⟩)

/-- If the exact-match and prefix-match filters of one entry list are the
rune-prefixed images of those of another, the spec-level lookups agree. -/
theorem specLookup_eq_of_filters {es es' : List (List Char × V)} {P rest : List Char} {c : Char}
    (h1 : es.filter (fun p => p.1 == P) =
          (es'.filter (fun p => p.1 == rest)).map (fun p => (c :: p.1, p.2)))
    (h2 : es.filter (fun p => P.isPrefixOf p.1) =
          (es'.filter (fun p => rest.isPrefixOf p.1)).map (fun p => (c :: p.1, p.2))) :
    specLookup es P = specLookup es' rest := by
  unfold specLookup
  rw [h1, h2]
  cases hx : es'.filter (fun p => p.1 == rest) with
  | cons q l => obtain ⟨k, v⟩ := q; simp
  | nil =>
    simp only [List.map_nil]
    cases hy : es'.filter (fun p => rest.isPrefixOf p.1) with
    | nil => simp
    | cons q l =>
      obtain ⟨k, v⟩ := q
      cases l with
      | nil => simp
      | cons q' l' => obtain ⟨k', v'⟩ := q'; simp

/-- Correctness of `TrieNode.Get` on well-formed tries: it computes exactly
the unique-prefix lookup semantics `specLookup` over the stored entries. -/
theorem get_eq_specLookup :
    ∀ (P : List Char) (t : TrieNode V), Wf t → t.get P = specLookup (entries t) P := by
  intro P
  induction P with
  | nil =>
    intro t hwf
    cases hwf with
    | mk i tl n htail hone hkeys hchild hne =>
      rw [get_nil]
      simp only [item_mk]
      cases i with
      | some v =>
        by_cases hn : n = []
        · subst hn
          rw [entries_mk]
          simp only [itemEntries_some, entriesL_nil, List.append_nil]
          by_cases htl : tl = []
          · subst htl; simp [specLookup]
          · unfold specLookup
            rw [show List.filter (fun p => p.1 == ([] : List Char)) [(tl, v)] = [] by
                  simp [List.filter_cons, htl]]
            rw [show List.filter (fun p => List.isPrefixOf [] p.1) [(tl, v)] = [(tl, v)] by
                  simp [List.filter_cons]]
        · have htl : tl = [] := by
            by_contra hcon
            exact hn (htail hcon).1
          subst htl
          rw [entries_mk]
          simp only [itemEntries_some, List.cons_append, List.nil_append]
          unfold specLookup
          rw [show List.filter (fun p => p.1 == ([] : List Char)) (([], v) :: entriesL n) =
                ([], v) :: List.filter (fun p => p.1 == ([] : List Char)) (entriesL n) by
                simp [List.filter_cons]]
      | none =>
        rw [entries_mk]
        simp only [itemEntries_none, List.nil_append]
        have hex : (entriesL n).filter (fun p => p.1 == ([] : List Char)) = [] := by
          apply List.filter_eq_nil_iff.mpr
          rintro ⟨k, v⟩ hm hp
          obtain ⟨c', u, k', -, hk, -⟩ := entriesL_key_shape hm
          simp only [beq_iff_eq] at hp
          simp [hp] at hk
        have hpf : (entriesL n).filter (fun p => List.isPrefixOf [] p.1) = entriesL n := by
          apply List.filter_eq_self.mpr
          rintro ⟨k, v⟩ hm
          simp
        unfold specLookup
        rw [hex, hpf]
        have hlen := hone rfl
        rw [entries_mk] at hlen
        simp only [itemEntries_none, List.nil_append] at hlen
        cases hcase : entriesL n with
        | nil => simp
        | cons q l =>
          obtain ⟨k, v⟩ := q
          cases l with
          | nil => exact absurd (by simp [hcase]) hlen
          | cons q' l' => obtain ⟨k', v'⟩ := q'; simp
  | cons c rest ih =>
    intro t hwf
    cases hwf with
    | mk i tl n htail hone hkeys hchild hne =>
      by_cases htl : tl = []
      · subst htl
        have hnp : ¬(c :: rest) <+: ([] : List Char) := by simp
        cases hl : lookupA n c with
        | none =>
          rw [get_cons_lookup_none hnp hl]
          have hc : c ∉ n.map Prod.fst := (lookupA_eq_none_iff n c).mp hl
          have hex : (entries (TrieNode.mk i [] n)).filter
              (fun p => p.1 == (c :: rest)) = [] := by
            rw [entries_mk, List.filter_append]
            rw [filter_entriesL_eq_nil hc _ (fun k v hp => by
              simp only [beq_iff_eq] at hp
              exact ⟨rest, hp⟩)]
            cases i with
            | none => simp
            | some v => simp [List.filter_cons]
          have hpf : (entries (TrieNode.mk i [] n)).filter
              (fun p => (c :: rest).isPrefixOf p.1) = [] := by
            rw [entries_mk, List.filter_append]
            rw [filter_entriesL_eq_nil hc _ (fun k v hp => by
              cases k with
              | nil => simp at hp
              | cons k1 k' =>
                simp only [isPrefixOf_cons_eq, Bool.and_eq_true, beq_iff_eq] at hp
                exact ⟨k', by rw [hp.1]⟩)]
            cases i with
            | none => simp
            | some v => simp [List.filter_cons]
          unfold specLookup
          rw [hex, hpf]
        | some u =>
          have hmem := mem_of_lookupA_eq_some hl
          have hwfu : Wf u := hchild c u hmem
          rw [get_cons_lookup_some hnp hl, ih u hwfu]
          obtain ⟨pre, post, hsplit, hcpre⟩ := lookupA_eq_some_split hl
          have hcpost : c ∉ post.map Prod.fst := by
            have hkey2 := hkeys
            rw [hsplit] at hkey2
            simp only [List.map_append, List.map_cons] at hkey2
            have h2 := (List.nodup_append.mp hkey2).2.1
            exact (List.nodup_cons.mp h2).1
          refine (specLookup_eq_of_filters (c := c) ?_ ?_).symm
          · rw [hsplit, entries_mk]
            simp only [entriesL_append, entriesL_cons]
            rw [List.filter_append, List.filter_append, List.filter_append]
            rw [filter_entriesL_eq_nil hcpre _ (fun k v hp => by
              simp only [beq_iff_eq] at hp
              exact ⟨rest, hp⟩)]
            rw [filter_entriesL_eq_nil hcpost _ (fun k v hp => by
              simp only [beq_iff_eq] at hp
              exact ⟨rest, hp⟩)]
            rw [List.filter_map]
            rw [show (itemEntries i []).filter (fun p => p.1 == (c :: rest)) = [] by
              cases i with
              | none => simp
              | some v => simp [List.filter_cons]]
            simp only [List.nil_append, List.append_nil]
            congr 1
            apply List.filter_congr
            intro p hp
            simp [Function.comp, List.cons_beq_cons]
          · rw [hsplit, entries_mk]
            simp only [entriesL_append, entriesL_cons]
            rw [List.filter_append, List.filter_append, List.filter_append]
            rw [filter_entriesL_eq_nil hcpre _ (fun k v hp => by
              cases k with
              | nil => simp at hp
              | cons k1 k' =>
                simp only [isPrefixOf_cons_eq, Bool.and_eq_true, beq_iff_eq] at hp
                exact ⟨k', by rw [hp.1]⟩)]
            rw [filter_entriesL_eq_nil hcpost _ (fun k v hp => by
              cases k with
              | nil => simp at hp
              | cons k1 k' =>
                simp only [isPrefixOf_cons_eq, Bool.and_eq_true, beq_iff_eq] at hp
                exact ⟨k', by rw [hp.1]⟩)]
            rw [List.filter_map]
            rw [show (itemEntries i []).filter (fun p => (c :: rest).isPrefixOf p.1) = [] by
              cases i with
              | none => simp
              | some v => simp [List.filter_cons]]
            simp only [List.nil_append, List.append_nil]
            congr 1
            apply List.filter_congr
            intro p hp
            simp [Function.comp, isPrefixOf_cons_eq]
      · obtain ⟨hn, hi⟩ := htail htl
        subst hn
        obtain ⟨v, rfl⟩ : ∃ v, i = some v := by
          cases i with
          | none => exact absurd rfl hi
          | some v => exact ⟨v, rfl⟩
        rw [entries_mk]
        simp only [itemEntries_some, entriesL_nil, List.append_nil]
        by_cases hp : (c :: rest) <+: tl
        · rw [get_cons_pref hp]
          by_cases heq : tl = c :: rest
          · unfold specLookup
            rw [show List.filter (fun p => p.1 == (c :: rest)) [(tl, v)] = [(tl, v)] by
                  simp [List.filter_cons, heq]]
          · unfold specLookup
            rw [show List.filter (fun p => p.1 == (c :: rest)) [(tl, v)] = [] by
                  simp [List.filter_cons, heq]]
            rw [show List.filter (fun p => (c :: rest).isPrefixOf p.1) [(tl, v)] = [(tl, v)] by
                  simp [List.filter_cons, List.isPrefixOf_iff_prefix, hp]]
        · rw [get_cons_lookup_none hp (lookupA_nil c)]
          have hne2 : tl ≠ c :: rest := fun h => hp (by rw [h])
          unfold specLookup
          rw [show List.filter (fun p => p.1 == (c :: rest)) [(tl, v)] = [] by
                simp [List.filter_cons, hne2]]
          rw [show List.filter (fun p => (c :: rest).isPrefixOf p.1) [(tl, v)] = [] by
                simp [List.filter_cons, List.isPrefixOf_iff_prefix, hp]]

theorem keys_map_cons (c : Char) (es : List (List Char × V)) :
    ((es.map (fun p => (c :: p.1, p.2))).map Prod.fst) = (es.map Prod.fst).map (c :: ·) := by
  induction es with
  | nil => rfl
  | cons p r ih => simp [ih]

theorem cons_injective (c : Char) : Function.Injective (c :: · : List Char → List Char) := by
  intro a b h
  exact (List.cons.injEq .. ▸ h).2

/-- Replacing the middle segment of a nodup list of keys by a nodup image with
the same members plus one fresh key preserves nodup-ness. -/
theorem nodup_replace_mid {α β : Type} {f : α → β} (hf : Function.Injective f)
    {KA KB : List β} {KU KU' : List α} {y : α}
    (h : (KA ++ (KU.map f ++ KB)).Nodup)
    (hKU' : KU'.Nodup)
    (hmem : ∀ x ∈ KU', x = y ∨ x ∈ KU)
    (hfresh : f y ∉ KA ++ (KU.map f ++ KB)) :
    (KA ++ (KU'.map f ++ KB)).Nodup := by
  rw [List.nodup_append] at h
  obtain ⟨hA, hrest, hdisjA⟩ := h
  rw [List.nodup_append] at hrest
  obtain ⟨hM, hB, hdisjMB⟩ := hrest
  simp only [List.mem_append] at hfresh
  push_neg at hfresh
  obtain ⟨hfA, hfM, hfB⟩ := hfresh
  rw [List.nodup_append]
  refine ⟨hA, ?_, ?_⟩
  · rw [List.nodup_append]
    refine ⟨hKU'.map hf, hB, ?_⟩
    intro a haM' haB
    obtain ⟨x, hx, rfl⟩ := List.mem_map.mp haM'
    rcases hmem x hx with rfl | hxU
    · exact hfB haB
    · exact hdisjMB (List.mem_map.mpr ⟨x, hxU, rfl⟩) haB
  · intro a haA haMB
    rcases List.mem_append.mp haMB with haM' | haB
    · obtain ⟨x, hx, rfl⟩ := List.mem_map.mp haM'
      rcases hmem x hx with rfl | hxU
      · exact hfA haA
      · exact hdisjA haA (List.mem_append.mpr (Or.inl (List.mem_map.mpr ⟨x, hxU, rfl⟩)))
    · exact hdisjA haA (List.mem_append.mpr (Or.inr haB))

theorem entriesL_split {n : List (Char × TrieNode V)} {c : Char} {u : TrieNode V}
    {pre post : List (Char × TrieNode V)} (hsplit : n = pre ++ (c, u) :: post) :
    entriesL n =
      entriesL pre ++ ((entries u).map (fun p => (c :: p.1, p.2)) ++ entriesL post) := by
  subst hsplit
  simp [entriesL_append]

theorem cons_not_mem_entriesL_keys {n : List (Char × TrieNode V)} {c : Char}
    (hc : c ∉ n.map Prod.fst) (rest : List Char) :
    (c :: rest) ∉ (entriesL n).map Prod.fst := by
  intro hmem
  obtain ⟨⟨kk, vv⟩, hkv, hfst⟩ := List.mem_map.mp hmem
  obtain ⟨c₀, u₀, k₀, hmem₀, hk₀, -⟩ := entriesL_key_shape hkv
  simp only at hfst
  rw [hfst] at hk₀
  have hcc : c = c₀ := (List.cons.injEq .. ▸ hk₀).1
  exact hc (List.mem_map.mpr ⟨(c₀, u₀), hmem₀, hcc.symm⟩)

/-- The single well-formed leaf holding one key. -/
theorem wf_leaf (v : V) (k : List Char) : Wf (TrieNode.mk (some v) k []) := by
  refine Wf.mk _ _ _ (fun _ => ⟨rfl, by simp⟩) (fun hcon => by simp at hcon) (by simp)
    (fun c u h => by simp at h) (fun c u h => by simp at h)

/-- Correctness of one `Add` step below a node whose tail (if any) has already
been pushed down: the child-map frame `(i', n')` describes the node at the
moment the Go code reaches `r, tail := firstRune(key)`. -/
theorem add_ok_core {c : Char} {rest : List Char} {v : V} {t' : TrieNode V}
    {i' : Option V} {n' : List (Char × TrieNode V)}
    (IH : ∀ (u : TrieNode V) (v₀ : V) (u' : TrieNode V),
        Wf u → ((entries u).map Prod.fst).Nodup → u.add rest v₀ = (u', true) →
        Wf u' ∧ ((entries u').map Prod.fst).Nodup ∧
          rest ∉ (entries u).map Prod.fst ∧
          (entries u').length = (entries u).length + 1 ∧
          (∀ p : List Char × V, p ∈ entries u' ↔ p = (rest, v₀) ∨ p ∈ entries u))
    (hkeysN : (n'.map Prod.fst).Nodup)
    (hchildN : ∀ c₀ u₀, (c₀, u₀) ∈ n' → Wf u₀)
    (hneN : ∀ c₀ u₀, (c₀, u₀) ∈ n' → entries u₀ ≠ [])
    (hnd : ((itemEntries i' ([] : List Char) ++ entriesL n').map Prod.fst).Nodup)
    (hlen0 : i' = none → entriesL n' ≠ [])
    (hadd : (match lookupA n' c with
        | some node =>
          ((TrieNode.mk i' [] (insertA n' c (node.add rest v).1)), (node.add rest v).2)
        | none =>
          ((TrieNode.mk i' [] (insertA n' c (TrieNode.mk (some v) rest []))), true))
        = (t', true)) :
    Wf t' ∧ ((entries t').map Prod.fst).Nodup ∧
      (c :: rest) ∉ (itemEntries i' ([] : List Char) ++ entriesL n').map Prod.fst ∧
      (entries t').length = (itemEntries i' ([] : List Char) ++ entriesL n').length + 1 ∧
      (∀ p : List Char × V,
        p ∈ entries t' ↔ p = (c :: rest, v) ∨
          p ∈ itemEntries i' ([] : List Char) ++ entriesL n') := by
  cases hl : lookupA n' c with
  | none =>
    rw [hl] at hadd
    have ht' : TrieNode.mk i' [] (insertA n' c (TrieNode.mk (some v) rest [])) = t' := by
      exact congrArg Prod.fst hadd
    subst ht'
    have hcfree : c ∉ n'.map Prod.fst := (lookupA_eq_none_iff n' c).mp hl
    have hins : insertA n' c (TrieNode.mk (some v) rest [])
        = n' ++ [(c, TrieNode.mk (some v) rest [])] := insertA_keys_of_not_mem _ _ _ hcfree
    have hE' : entries (TrieNode.mk i' [] (insertA n' c (TrieNode.mk (some v) rest []))) =
        (itemEntries i' [] ++ entriesL n') ++ [(c :: rest, v)] := by
      rw [entries_mk, hins, entriesL_append]
      simp [List.append_assoc, entries_mk]
    have hfresh : (c :: rest) ∉ (itemEntries i' ([] : List Char) ++ entriesL n').map Prod.fst := by
      simp only [List.map_append, List.mem_append]
      push_neg
      constructor
      · cases i' <;> simp
      · exact cons_not_mem_entriesL_keys hcfree rest
    refine ⟨?_, ?_, hfresh, ?_, ?_⟩
    · refine Wf.mk _ _ _ (fun hcon => absurd rfl hcon) ?_ ?_ ?_ ?_
      · intro hi0
        rw [hE']
        have hn0 := hlen0 hi0
        subst hi0
        simp only [itemEntries_none, List.nil_append, List.length_append, List.length_cons,
          List.length_nil]
        cases hx : entriesL n' with
        | nil => exact absurd hx hn0
        | cons a l => simp [hx]
      · rw [hins]
        simp only [List.map_append, List.map_cons, List.map_nil]
        rw [List.nodup_append]
        refine ⟨hkeysN, by simp, ?_⟩
        intro a ha hb
        simp only [List.mem_cons, List.not_mem_nil, or_false] at hb
        subst hb
        exact hcfree ha
      · intro c₀ u₀ hmem
        rw [hins] at hmem
        rcases List.mem_append.mp hmem with h | h
        · exact hchildN c₀ u₀ h
        · simp only [List.mem_cons, List.not_mem_nil, or_false] at h
          obtain ⟨h1, h2⟩ := Prod.mk.injEq .. ▸ h
          subst h2
          exact wf_leaf v rest
      · intro c₀ u₀ hmem
        rw [hins] at hmem
        rcases List.mem_append.mp hmem with h | h
        · exact hneN c₀ u₀ h
        · simp only [List.mem_cons, List.not_mem_nil, or_false] at h
          obtain ⟨h1, h2⟩ := Prod.mk.injEq .. ▸ h
          subst h2
          simp [entries_mk]
    · rw [hE']
      simp only [List.map_append, List.map_cons, List.map_nil]
      rw [List.nodup_append]
      have hndD := hnd
      rw [List.map_append] at hndD
      refine ⟨hndD, by simp, ?_⟩
      intro a ha hb
      simp only [List.mem_cons, List.not_mem_nil, or_false] at hb
      subst hb
      exact hfresh (by rw [List.map_append]; exact ha)
    · rw [hE']
      simp [List.length_append]
      omega
    · intro p
      rw [hE']
      simp only [List.mem_append, List.mem_cons, List.not_mem_nil, or_false]
      tauto
  | some u =>
    rw [hl] at hadd
    have hok : (u.add rest v).2 = true := congrArg Prod.snd hadd
    have ht' : TrieNode.mk i' [] (insertA n' c (u.add rest v).1) = t' :=
      congrArg Prod.fst hadd
    have hradd : u.add rest v = ((u.add rest v).1, true) := by
      rw [← hok]
    obtain ⟨pre, post, hsplit, hcpre, hinsEq⟩ :=
      insertA_keys_of_lookup_some n' c (u.add rest v).1 u hl
    have hmemu : (c, u) ∈ n' := mem_of_lookupA_eq_some hl
    have hELn : entriesL n' =
        entriesL pre ++ ((entries u).map (fun p => (c :: p.1, p.2)) ++ entriesL post) :=
      entriesL_split hsplit
    have hcpost : c ∉ post.map Prod.fst := by
      have hk2 := hkeysN
      rw [hsplit] at hk2
      simp only [List.map_append, List.map_cons] at hk2
      have h2 := (List.nodup_append.mp hk2).2.1
      exact (List.nodup_cons.mp h2).1
    have hndu : ((entries u).map Prod.fst).Nodup := by
      have hsub : (((entries u).map (fun p => (c :: p.1, p.2))).map Prod.fst).Sublist
          ((itemEntries i' ([] : List Char) ++ entriesL n').map Prod.fst) := by
        rw [hELn]
        refine List.Sublist.map Prod.fst ?_
        exact ((List.sublist_append_left _ _).trans
          (List.sublist_append_right _ _)).trans (List.sublist_append_right _ _)
      have hndmid := List.Nodup.sublist hsub hnd
      rw [keys_map_cons] at hndmid
      exact List.Nodup.of_map _ hndmid
    obtain ⟨hwfu', hndu', hfru, hlenu, hiffu⟩ :=
      IH u v (u.add rest v).1 (hchildN c u hmemu) hndu hradd
    subst ht'
    have hE' : entries (TrieNode.mk i' []
        (insertA n' c (u.add rest v).1)) =
        itemEntries i' [] ++ (entriesL pre ++
          (((u.add rest v).1.entries).map (fun p => (c :: p.1, p.2)) ++ entriesL post)) := by
      rw [entries_mk, hinsEq, entriesL_split rfl]
    have hfresh : (c :: rest) ∉ (itemEntries i' ([] : List Char) ++ entriesL n').map Prod.fst := by
      rw [hELn]
      simp only [List.map_append, List.mem_append, keys_map_cons]
      push_neg
      refine ⟨?_, ?_, ?_, ?_⟩
      · cases i' <;> simp
      · exact cons_not_mem_entriesL_keys hcpre rest
      · intro hmem
        obtain ⟨x, hx, hxx⟩ := List.mem_map.mp hmem
        have : x = rest := (List.cons.injEq .. ▸ hxx).2
        subst this
        exact hfru hx
      · exact cons_not_mem_entriesL_keys hcpost rest
    have hiff : ∀ p : List Char × V,
        p ∈ entries (TrieNode.mk i' [] (insertA n' c (u.add rest v).1)) ↔
          p = (c :: rest, v) ∨ p ∈ itemEntries i' ([] : List Char) ++ entriesL n' := by
      intro p
      rw [hE', hELn]
      simp only [List.mem_append, List.mem_map]
      constructor
      · rintro (h | h | ⟨q, hq, rfl⟩ | h)
        · exact Or.inr (Or.inl h)
        · exact Or.inr (Or.inr (Or.inl h))
        · rcases (hiffu q).mp hq with rfl | hqu
          · exact Or.inl rfl
          · exact Or.inr (Or.inr (Or.inr (Or.inl ⟨q, hqu, rfl⟩)))
        · exact Or.inr (Or.inr (Or.inr (Or.inr h)))
      · rintro (rfl | h | h | ⟨q, hq, rfl⟩ | h)
        · exact Or.inr (Or.inr (Or.inl ⟨(rest, v), (hiffu _).mpr (Or.inl rfl), rfl⟩))
        · exact Or.inl h
        · exact Or.inr (Or.inl h)
        · exact Or.inr (Or.inr (Or.inl ⟨q, (hiffu q).mpr (Or.inr hq), rfl⟩))
        · exact Or.inr (Or.inr (Or.inr h))
    refine ⟨?_, ?_, hfresh, ?_, hiff⟩
    · -- well-formedness of the updated node
      refine Wf.mk _ _ _ (fun hcon => absurd rfl hcon) ?_ ?_ ?_ ?_
      · intro hi0
        have hn0 : entries u ≠ [] := hneN c u hmemu
        have hlen' : (entries (TrieNode.mk i' []
            (insertA n' c (u.add rest v).1))).length =
            (itemEntries i' ([] : List Char) ++ entriesL n').length + 1 := by
          rw [hE', hELn]
          simp only [List.length_append, List.length_map, hlenu]
          omega
        rw [hlen']
        subst hi0
        simp only [itemEntries_none, List.nil_append, hELn, List.length_append, List.length_map]
        cases hx : entries u with
        | nil => exact absurd hx hn0
        | cons a l => simp [hx]
      · -- nodup of child runes
        rw [hinsEq]
        have hk2 := hkeysN
        rw [hsplit] at hk2
        simpa using hk2
      · intro c₀ u₀ hmem
        rw [hinsEq] at hmem
        rcases List.mem_append.mp hmem with h | h
        · exact hchildN c₀ u₀ (by rw [hsplit]; exact List.mem_append_left _ h)
        · rcases List.mem_cons.mp h with h1 | h1
          · obtain ⟨ha, hb⟩ := Prod.mk.injEq .. ▸ h1
            subst hb
            exact hwfu'
          · exact hchildN c₀ u₀
              (by rw [hsplit]; exact List.mem_append_right _ (List.mem_cons_of_mem _ h1))
      · intro c₀ u₀ hmem
        rw [hinsEq] at hmem
        rcases List.mem_append.mp hmem with h | h
        · exact hneN c₀ u₀ (by rw [hsplit]; exact List.mem_append_left _ h)
        · rcases List.mem_cons.mp h with h1 | h1
          · obtain ⟨ha, hb⟩ := Prod.mk.injEq .. ▸ h1
            subst hb
            intro hcon
            have := (hiffu (rest, v)).mpr (Or.inl rfl)
            rw [hcon] at this
            simp at this
          · exact hneN c₀ u₀
              (by rw [hsplit]; exact List.mem_append_right _ (List.mem_cons_of_mem _ h1))
    · -- nodup of the stored keys after the update
      rw [hE']
      have hbig : ((itemEntries i' ([] : List Char)).map Prod.fst ++
          (entriesL pre).map Prod.fst ++
          (((entries u).map Prod.fst).map (c :: ·) ++ (entriesL post).map Prod.fst)).Nodup := by
        have h0 := hnd
        rw [hELn] at h0
        simpa [List.map_append, keys_map_cons, List.append_assoc] using h0
      have hmemK : ∀ x ∈ ((u.add rest v).1.entries).map Prod.fst,
          x = rest ∨ x ∈ (entries u).map Prod.fst := by
        intro x hx
        obtain ⟨⟨k0, v0⟩, hk0, rfl⟩ := List.mem_map.mp hx
        rcases (hiffu (k0, v0)).mp hk0 with heq | hm
        · obtain ⟨h1, h2⟩ := Prod.mk.injEq .. ▸ heq
          exact Or.inl h1
        · exact Or.inr (List.mem_map.mpr ⟨(k0, v0), hm, rfl⟩)
      have hfr2 : (c :: rest) ∉ (itemEntries i' ([] : List Char)).map Prod.fst ++
          (entriesL pre).map Prod.fst ++
          (((entries u).map Prod.fst).map (c :: ·) ++ (entriesL post).map Prod.fst) := by
        have h0 := hfresh
        rw [hELn] at h0
        simp only [List.map_append, keys_map_cons, List.append_assoc, List.mem_append] at h0 ⊢
        tauto
      have hres := nodup_replace_mid (cons_injective c) hbig hndu' hmemK hfr2
      simpa [List.map_append, keys_map_cons, List.append_assoc] using hres
    · rw [hE', hELn]
      simp only [List.length_append, List.length_map, hlenu]
      omega

/-- Unfolding of `Add` on a nonempty key, in rewrite-friendly form. -/
theorem add_cons_eq (i : Option V) (tl : List Char) (n : List (Char × TrieNode V))
    (c : Char) (rest : List Char) (v : V) :
    (TrieNode.mk i tl n).add (c :: rest) v =
      if n.isEmpty && tl.isEmpty && i.isNone then
        (TrieNode.mk (some v) (c :: rest) n, true)
      else
        let pushed : Option V × List Char × List (Char × TrieNode V) :=
          match tl with
          | [] => (i, [], n)
          | tc :: ts => (none, [], insertA n tc (TrieNode.mk i ts []))
        match lookupA pushed.2.2 c with
        | some node =>
          (TrieNode.mk pushed.1 pushed.2.1 (insertA pushed.2.2 c (node.add rest v).1),
            (node.add rest v).2)
        | none =>
          (TrieNode.mk pushed.1 pushed.2.1
            (insertA pushed.2.2 c (TrieNode.mk (some v) rest [])), true) := rfl

/-- Correctness of a successful `Add`: the new trie is well-formed, its stored
keys stay duplicate-free, the added key was fresh, and the stored entries are
the old ones plus the new pair. -/
theorem add_ok :
    ∀ (k : List Char) (t : TrieNode V) (v : V) (t' : TrieNode V),
      Wf t → ((entries t).map Prod.fst).Nodup →
      t.add k v = (t', true) →
      Wf t' ∧ ((entries t').map Prod.fst).Nodup ∧
        k ∉ (entries t).map Prod.fst ∧
        (entries t').length = (entries t).length + 1 ∧
        (∀ p : List Char × V, p ∈ entries t' ↔ p = (k, v) ∨ p ∈ entries t) := by
  intro k
  induction k with
  | nil =>
    intro t v t' hwf hnd hadd
    cases hwf with
    | mk i tl n htail hone hkeys hchild hne =>
      cases i with
      | some w => simp [add] at hadd
      | none =>
        have htl : tl = [] := by
          by_contra hcon
          exact (htail hcon).2 rfl
        subst htl
        rw [show (TrieNode.mk (none : Option V) [] n).add [] v
              = (TrieNode.mk (some v) [] n, true) from rfl] at hadd
        obtain ⟨ht', -⟩ := Prod.mk.injEq .. ▸ hadd
        subst ht'
        have hEt : entries (TrieNode.mk (none : Option V) [] n) = entriesL n := by
          rw [entries_mk]; simp
        have hEt' : entries (TrieNode.mk (some v) [] n) = ([], v) :: entriesL n := by
          rw [entries_mk]; simp
        have hnilfresh : ([] : List Char) ∉ (entriesL n).map Prod.fst := by
          intro hmem
          obtain ⟨⟨kk, vv⟩, hkv, hfst⟩ := List.mem_map.mp hmem
          obtain ⟨c₀, u₀, k₀, -, hk₀, -⟩ := entriesL_key_shape hkv
          simp only at hfst
          rw [hfst] at hk₀
          simp at hk₀
        refine ⟨?_, ?_, ?_, ?_, ?_⟩
        · exact Wf.mk _ _ _ (fun hcon => absurd rfl hcon) (fun hcon => by simp at hcon)
            hkeys hchild hne
        · rw [hEt']
          simp only [List.map_cons]
          refine List.nodup_cons.mpr ⟨hnilfresh, ?_⟩
          rw [hEt] at hnd
          exact hnd
        · rw [hEt]; exact hnilfresh
        · rw [hEt, hEt']; simp
        · intro p
          rw [hEt, hEt']
          simp
  | cons c rest ih =>
    intro t v t' hwf hnd hadd
    cases hwf with
    | mk i tl n htail hone hkeys hchild hne =>
      by_cases hA : (n.isEmpty && tl.isEmpty && i.isNone) = true
      · simp only [Bool.and_eq_true, List.isEmpty_iff, Option.isNone_iff_eq_none] at hA
        obtain ⟨⟨hn, htl⟩, hi⟩ := hA
        subst hn; subst htl; subst hi
        rw [show (TrieNode.mk (none : Option V) [] []).add (c :: rest) v
              = (TrieNode.mk (some v) (c :: rest) [], true) from rfl] at hadd
        obtain ⟨ht', -⟩ := Prod.mk.injEq .. ▸ hadd
        subst ht'
        refine ⟨wf_leaf v (c :: rest), ?_, ?_, ?_, ?_⟩ <;> simp [entries_mk]
      · cases tl with
        | nil =>
          rw [add_cons_eq, if_neg hA] at hadd
          have hnd2 : ((itemEntries i ([] : List Char) ++ entriesL n).map Prod.fst).Nodup := by
            rw [entries_mk] at hnd
            exact hnd
          have hlen0 : i = none → entriesL n ≠ [] := by
            intro hi0 hcon
            subst hi0
            cases n with
            | nil => exact hA (by simp)
            | cons p r =>
              obtain ⟨c₀, u₀⟩ := p
              rw [entriesL_cons] at hcon
              obtain ⟨h1, -⟩ := List.append_eq_nil.mp hcon
              exact hne c₀ u₀ (by simp) (List.map_eq_nil_iff.mp h1)
          obtain ⟨w1, w2, w3, w4, w5⟩ := add_ok_core ih hkeys hchild hne hnd2 hlen0 hadd
          refine ⟨w1, w2, ?_, ?_, ?_⟩
          · rw [entries_mk]; exact w3
          · rw [entries_mk]; exact w4
          · intro p
            rw [entries_mk]
            exact w5 p
        | cons tc ts =>
          obtain ⟨hn, hi⟩ := htail (by simp)
          subst hn
          obtain ⟨w, rfl⟩ : ∃ w, i = some w := by
            cases i with
            | none => exact absurd rfl hi
            | some w => exact ⟨w, rfl⟩
          rw [add_cons_eq, if_neg hA] at hadd
          have hkeysN : (([(tc, TrieNode.mk (some w) ts [])].map Prod.fst)).Nodup := by simp
          have hchildN : ∀ c₀ u₀, (c₀, u₀) ∈ [(tc, TrieNode.mk (some w) ts [])] → Wf u₀ := by
            intro c₀ u₀ h
            simp only [List.mem_singleton] at h
            obtain ⟨-, h2⟩ := Prod.mk.injEq .. ▸ h
            subst h2
            exact wf_leaf w ts
          have hneN : ∀ c₀ u₀, (c₀, u₀) ∈ [(tc, TrieNode.mk (some w) ts [])] →
              entries u₀ ≠ [] := by
            intro c₀ u₀ h
            simp only [List.mem_singleton] at h
            obtain ⟨-, h2⟩ := Prod.mk.injEq .. ▸ h
            subst h2
            simp [entries_mk]
          have hEq : itemEntries (none : Option V) ([] : List Char) ++
              entriesL [(tc, TrieNode.mk (some w) ts [])] =
              entries (TrieNode.mk (some w) (tc :: ts) []) := by
            simp [entries_mk]
          have hnd2 : ((itemEntries (none : Option V) ([] : List Char) ++
              entriesL [(tc, TrieNode.mk (some w) ts [])]).map Prod.fst).Nodup := by
            rw [hEq]
            simp [entries_mk]
          have hlen0 : (none : Option V) = none →
              entriesL [(tc, TrieNode.mk (some w) ts [])] ≠ [] := by
            intro _
            simp [entries_mk]
          obtain ⟨w1, w2, w3, w4, w5⟩ := add_ok_core ih hkeysN hchildN hneN hnd2 hlen0 hadd
          refine ⟨w1, w2, ?_, ?_, ?_⟩
          · rw [← hEq]; exact w3
          · rw [← hEq]; exact w4
          · intro p
            rw [← hEq]
            exact w5 p

/-- Sequential insertion of key/value pairs, the way `FlagSet.AddFlag` grows
`LongTrie` one registration at a time; `none` as soon as one `Add` reports a
duplicate (in which case `AddFlag` returns an error and registration panics). -/
def buildTrie : TrieNode V → List (List Char × V) → Option (TrieNode V)
  | t, [] => some t
  | t, (k, v) :: r =>
    match t.add k v with
    | (t', true) => buildTrie t' r
    | (_, false) => none

theorem wf_newTrie : Wf (newTrie : TrieNode V) := by
  refine Wf.mk _ _ _ (fun hcon => absurd rfl hcon) (fun _ => by rw [entries_mk]; simp)
    (by simp) (fun c u h => by simp at h) (fun c u h => by simp at h)

theorem entries_newTrie : entries (newTrie : TrieNode V) = [] := by
  rw [show (newTrie : TrieNode V) = TrieNode.mk none [] [] from rfl, entries_mk]
  simp

/-- Invariant of sequential insertion: starting from a well-formed trie with
duplicate-free keys, a successful build yields a well-formed trie whose
entries are the old ones plus the inserted pairs. -/
theorem buildTrie_ok :
    ∀ (ks : List (List Char × V)) (t t' : TrieNode V),
      Wf t → ((entries t).map Prod.fst).Nodup →
      buildTrie t ks = some t' →
      Wf t' ∧ ((entries t').map Prod.fst).Nodup ∧
        (∀ p : List Char × V, p ∈ entries t' ↔ p ∈ ks ∨ p ∈ entries t) ∧
        (entries t').length = (entries t).length + ks.length := by
  intro ks
  induction ks with
  | nil =>
    intro t t' h1 h2 h3
    simp only [buildTrie, Option.some.injEq] at h3
    subst h3
    exact ⟨h1, h2, by simp, by simp⟩
  | cons q r ih =>
    obtain ⟨k, v⟩ := q
    intro t t' h1 h2 h3
    simp only [buildTrie] at h3
    rcases ha : t.add k v with ⟨t1, b⟩
    rw [ha] at h3
    cases b with
    | false => simp at h3
    | true =>
      simp only at h3
      obtain ⟨w1, w2, w3, w4, w5⟩ := add_ok k t v t1 h1 h2 ha
      obtain ⟨q1, q2, q3, q4⟩ := ih t1 t' w1 w2 h3
      refine ⟨q1, q2, ?_, ?_⟩
      · intro p
        rw [q3 p]
        simp only [List.mem_cons]
        rw [w5 p]
        tauto
      · rw [q4, w4]
        simp [List.length_cons]
        omega

/-- In a list of pairs with duplicate-free keys, the sole pair whose key
satisfies a predicate is picked out exactly by `filter`. -/
theorem filter_eq_single_of_keys {es : List (List Char × V)} {L : List Char} {v : V}
    (hnd : (es.map Prod.fst).Nodup) (hmem : (L, v) ∈ es) (pred : List Char → Bool)
    (hL : pred L = true) (honly : ∀ p ∈ es, pred p.1 = true → p.1 = L) :
    es.filter (fun p => pred p.1) = [(L, v)] := by
  induction es with
  | nil => simp at hmem
  | cons q r ihq =>
    obtain ⟨k0, v0⟩ := q
    simp only [List.map_cons, List.nodup_cons] at hnd
    obtain ⟨hk0, hndr⟩ := hnd
    rcases List.mem_cons.mp hmem with heq | hmr
    · cases heq
      rw [List.filter_cons]
      simp only [hL, if_true]
      rw [List.filter_eq_nil_iff.mpr ?_]
      intro p hp hpred
      have := honly p (List.mem_cons_of_mem _ hp) hpred
      exact hk0 (this ▸ List.mem_map.mpr ⟨p, hp, rfl⟩)
    · have hk0pred : pred k0 = false := by
        by_contra hcon
        rw [Bool.not_eq_false] at hcon
        have hkL : k0 = L := honly (k0, v0) (List.mem_cons_self _ _) hcon
        refine hk0 ?_
        rw [hkL]
        exact List.mem_map.mpr ⟨(L, v), hmr, rfl⟩
      rw [List.filter_cons]
      simp only [hk0pred]
      exact ihq hndr hmr fun p hp => honly p (List.mem_cons_of_mem _ hp)

/-- Facts about a trie built from scratch by sequential insertion. -/
theorem build_facts {ks : List (List Char × V)} {t : TrieNode V}
    (hb : buildTrie newTrie ks = some t) :
    Wf t ∧ ((entries t).map Prod.fst).Nodup ∧
      (∀ p : List Char × V, p ∈ entries t ↔ p ∈ ks) ∧
      (entries t).length = ks.length := by
  obtain ⟨h1, h2, h3, h4⟩ := buildTrie_ok ks newTrie t wf_newTrie (by simp [entries_newTrie]) hb
  rw [entries_newTrie] at h4
  simp only [entries_newTrie, List.not_mem_nil, or_false] at h3
  exact ⟨h1, h2, h3, by simpa using h4⟩

/-- `Get` with the full name of a stored entry returns its value, in any trie
built by sequential insertion from duplicate-free keys. -/
theorem get_full_key {ks : List (List Char × V)} {t : TrieNode V}
    (hb : buildTrie newTrie ks = some t) {L : List Char} {v : V} (hL : (L, v) ∈ ks) :
    t.get L = some v := by
  obtain ⟨hwf, hndT, hmem, -⟩ := build_facts hb
  rw [get_eq_specLookup L t hwf]
  unfold specLookup
  rw [filter_eq_single_of_keys hndT ((hmem _).mpr hL) (fun kk => kk == L) (by simp)
    (fun p hp hpred => by simpa using hpred)]

/-- `Get` with a query that is a prefix of exactly one stored name resolves to
that name's value. -/
theorem get_unique_prefix {ks : List (List Char × V)} {t : TrieNode V}
    (hnd : (ks.map Prod.fst).Nodup)
    (hb : buildTrie newTrie ks = some t) {L : List Char} {v : V} (hL : (L, v) ∈ ks)
    {P : List Char}
    (hfilter : (ks.map Prod.fst).filter (fun kk => P.isPrefixOf kk) = [L]) :
    t.get P = some v := by
  obtain ⟨hwf, hndT, hmem, -⟩ := build_facts hb
  have hkeyiff : ∀ kk, kk ∈ (entries t).map Prod.fst ↔ kk ∈ ks.map Prod.fst := by
    intro kk
    simp only [List.mem_map]
    constructor
    · rintro ⟨p, hp, rfl⟩
      exact ⟨p, (hmem p).mp hp, rfl⟩
    · rintro ⟨p, hp, rfl⟩
      exact ⟨p, (hmem p).mpr hp, rfl⟩
  have hPL : P.isPrefixOf L = true := by
    have hLf : L ∈ (ks.map Prod.fst).filter (fun kk => P.isPrefixOf kk) := by
      rw [hfilter]
      simp
    exact (List.mem_filter.mp hLf).2
  have honlyks : ∀ kk ∈ ks.map Prod.fst, P.isPrefixOf kk = true → kk = L := by
    intro kk hkk hpred
    have : kk ∈ [L] := hfilter ▸ List.mem_filter.mpr ⟨hkk, hpred⟩
    simpa using this
  by_cases hPeq : P = L
  · subst hPeq
    exact get_full_key hb hL
  · have hPnotkey : P ∉ ks.map Prod.fst := by
      intro hcon
      exact hPeq (honlyks P hcon (by simp [List.isPrefixOf_iff_prefix]))
    rw [get_eq_specLookup P t hwf]
    unfold specLookup
    rw [show (entries t).filter (fun p => p.1 == P) = [] from List.filter_eq_nil_iff.mpr ?_]
    rotate_left
    · rintro ⟨kk, vv⟩ hp hpred
      simp only [beq_iff_eq] at hpred
      subst hpred
      exact hPnotkey ((hkeyiff kk).mp (List.mem_map.mpr ⟨(kk, vv), hp, rfl⟩))
    rw [filter_eq_single_of_keys hndT ((hmem _).mpr hL) (fun kk => P.isPrefixOf kk) hPL
      (fun p hp hpred => honlyks p.1 ((hkeyiff p.1).mp (List.mem_map.mpr ⟨p, hp, rfl⟩)) hpred)]

/-- `Get` with a query that is not itself a stored name and is a proper prefix
of at least two stored names returns no match. -/
theorem get_ambiguous_prefix {ks : List (List Char × V)} {t : TrieNode V}
    (hnd : (ks.map Prod.fst).Nodup)
    (hb : buildTrie newTrie ks = some t) {P : List Char}
    (hPnk : P ∉ ks.map Prod.fst)
    (hlen2 : 2 ≤ ((ks.map Prod.fst).filter
      (fun kk => P.isPrefixOf kk && !(P == kk))).length) :
    t.get P = none := by
  obtain ⟨hwf, hndT, hmem, -⟩ := build_facts hb
  have hkeyiff : ∀ kk, kk ∈ (entries t).map Prod.fst ↔ kk ∈ ks.map Prod.fst := by
    intro kk
    simp only [List.mem_map]
    constructor
    · rintro ⟨p, hp, rfl⟩
      exact ⟨p, (hmem p).mp hp, rfl⟩
    · rintro ⟨p, hp, rfl⟩
      exact ⟨p, (hmem p).mpr hp, rfl⟩
  have hkperm : ((entries t).map Prod.fst).Perm (ks.map Prod.fst) :=
    (List.subperm_of_subset hndT (fun x hx => (hkeyiff x).mp hx)).antisymm
      (List.subperm_of_subset hnd (fun x hx => (hkeyiff x).mpr hx))
  rw [get_eq_specLookup P t hwf]
  unfold specLookup
  rw [show (entries t).filter (fun p => p.1 == P) = [] from List.filter_eq_nil_iff.mpr ?_]
  rotate_left
  · rintro ⟨kk, vv⟩ hp hpred
    simp only [beq_iff_eq] at hpred
    subst hpred
    exact hPnk ((hkeyiff kk).mp (List.mem_map.mpr ⟨(kk, vv), hp, rfl⟩))
  have hksfaeq : (ks.map Prod.fst).filter (fun kk => P.isPrefixOf kk && !(P == kk))
      = (ks.map Prod.fst).filter (fun kk => P.isPrefixOf kk) := by
    apply List.filter_congr
    intro kk hkk
    have hne0 : (P == kk) = false := by
      rw [beq_eq_false_iff_ne]
      intro hcon
      exact hPnk (hcon ▸ hkk)
    simp [hne0]
  have hmapf : ((entries t).map Prod.fst).filter (fun kk => P.isPrefixOf kk)
      = ((entries t).filter (fun p => P.isPrefixOf p.1)).map Prod.fst := by
    rw [List.filter_map]
    congr 1
  have hlenf : 2 ≤ ((entries t).filter (fun p => P.isPrefixOf p.1)).length := by
    have e1 := (hkperm.filter (fun kk => P.isPrefixOf kk)).length_eq
    rw [hksfaeq] at hlen2
    rw [hmapf] at e1
    rw [List.length_map] at e1
    omega
  rcases hfl : (entries t).filter (fun p => P.isPrefixOf p.1) with _ | ⟨⟨ak, av⟩, l⟩
  · rw [hfl] at hlenf
    simp at hlenf
  · rcases l with _ | ⟨⟨bk, bv⟩, l2⟩
    · rw [hfl] at hlenf
      simp at hlenf
    · rw [hfl]

/-- `Get ""` on a built trie of nonempty names: the unique stored flag when
exactly one name is stored, no match when zero or at least two are. -/
theorem get_nil_of_build {ks : List (List Char × V)} {t : TrieNode V}
    (hb : buildTrie newTrie ks = some t)
    (hnkeys : ([] : List Char) ∉ ks.map Prod.fst) :
    (∀ k v, ks = [(k, v)] → t.get [] = some v)
    ∧ (ks = [] → t.get [] = none)
    ∧ (2 ≤ ks.length → t.get [] = none) := by
  obtain ⟨hwf, hndT, hmem, hlen⟩ := build_facts hb
  rw [get_nil]
  cases hwf with
  | mk i tl n htail hone hkeys hchild hne =>
    refine ⟨?_, ?_, ?_⟩
    · rintro k v rfl
      cases i with
      | none => exact absurd (by simpa using hlen) (hone rfl)
      | some w =>
        have hw : (tl, w) ∈ entries (TrieNode.mk (some w) tl n) := by
          rw [entries_mk]; simp
        have hkv := (hmem _).mp hw
        simp only [List.mem_singleton, Prod.mk.injEq] at hkv
        simp [hkv.2]
    · rintro rfl
      cases i with
      | none => simp
      | some w =>
        have hw : (tl, w) ∈ entries (TrieNode.mk (some w) tl n) := by
          rw [entries_mk]; simp
        have := (hmem _).mp hw
        simp at this
    · intro h2
      cases i with
      | none => simp
      | some w =>
        by_cases hn : n = []
        · subst hn
          have h1 : (entries (TrieNode.mk (some w) tl [])).length = ks.length := hlen
          rw [entries_mk] at h1
          simp at h1
          omega
        · have htl0 : tl = [] := by
            by_contra hcon
            exact hn (htail hcon).1
          subst htl0
          have hw : (([] : List Char), w) ∈ entries (TrieNode.mk (some w) [] n) := by
            rw [entries_mk]; simp
          exact absurd (List.mem_map.mpr ⟨_, (hmem _).mp hw, rfl⟩) hnkeys

end TrieNode

end trie

namespace fflag

open trie

/-! ## The argument classifier (`parse.go`: `ArgMask`, `parseSingleArg`) -/

/-- `ArgMask` (parse.go): a six-bit classification mask (`AMFlagBit`,
`AMLongBit`, `AMClusterBit`, `AMParamBit`, `AMHyphenBit`, `AMNumberBit`),
modelled as six named bits; `Set*Bit`/`Clr*Bit` become record updates and
`Tst*Bit` become field projections. -/
structure ArgMask where
  flag : Bool
  long : Bool
  cluster : Bool
  param : Bool
  hyphen : Bool
  number : Bool
deriving DecidableEq, Repr

/-- `AMClear`, the zero mask. -/
def AMClear : ArgMask := ⟨false, false, false, false, false, false⟩

/-- `ArgMask.IsFlag` with its sanity-check panic: `none` models
`panic("flag purports to be just hyphens")`. -/
def ArgMask.isFlagO (m : ArgMask) : Option Bool :=
  if m.flag then
    if m.hyphen then none else some true
  else some false

/-- `ArgMask.IsLongFlag`, `none` modelling
`panic("fatal: purported cluster of long flags")`. -/
def ArgMask.isLongFlagO (m : ArgMask) : Option Bool := do
  let f ← m.isFlagO
  if f && m.long then
    if m.cluster then none else some true
  else some false

/-- `ArgMask.IsCluster`, `none` modelling
`panic("fatal: purported cluster of long flags")`. -/
def ArgMask.isClusterO (m : ArgMask) : Option Bool := do
  let f ← m.isFlagO
  if f && m.cluster then
    if m.long then none else some true
  else some false

/-- `ArgMask.HasParam`, `none` modelling its two sanity-check panics. -/
def ArgMask.hasParamO (m : ArgMask) : Option Bool :=
  if m.param then
    if !m.flag then none
    else if m.hyphen then none
    else some true
  else some false

/-- `ArgMask.IsNonFlag`, `none` modelling its two sanity-check panics. -/
def ArgMask.isNonFlagO (m : ArgMask) : Option Bool := do
  let f ← m.isFlagO
  if !f then
    if m.cluster then none
    else if m.param then none
    else some true
  else some false

/-- `ArgMask.IsFlag` as used by the parse engine.  On classifier output the
sanity-check panic is unreachable (theorem `classifier_mask_invariants`), so
the raw flag bit is the observable value. -/
def ArgMask.isFlagB (m : ArgMask) : Bool := m.flag

/-- `ArgMask.IsDoubleHyphen`. -/
def ArgMask.isDoubleHyphenB (m : ArgMask) : Bool := m.hyphen && m.long

/-- `ArgMask.IsShortFlag` (no panic of its own beyond `IsFlag`'s). -/
def ArgMask.isShortFlagB (m : ArgMask) : Bool := m.flag && !m.long && !m.cluster

/-- `ArgMask.IsCluster` as used by the parse engine (panic unreachable on
classifier output). -/
def ArgMask.isClusterB (m : ArgMask) : Bool := m.flag && m.cluster

/-- `ArgMask.IsNumber`. -/
def ArgMask.isNumberB (m : ArgMask) : Bool := m.number

/-- `ArgMask.HasParam` as used by the parse engine (panic unreachable on
classifier output). -/
def ArgMask.hasParamB (m : ArgMask) : Bool := m.param

/-- The result triple of `parseSingleArg`: `(flags, param, argType)`. -/
structure ParsedArg where
  flags : List Char
  param : List Char
  argType : ArgMask
deriving DecidableEq, Repr

/-- `strings.SplitN(s, "=", 2)`: the part before the first `=` and, when an
`=` occurs, the part after it. -/
def splitEq (s : List Char) : List Char × Option (List Char) :=
  match s with
  | [] => ([], none)
  | c :: r =>
    if c = '=' then ([], some r)
    else
      let p := splitEq r
      (c :: p.1, p.2)

/-- `strconv.ParseUint(s, 10, 64)` as a partial function: defined exactly on
nonempty all-decimal-digit strings whose value fits in 64 bits. -/
def goParseUint64 (s : List Char) : Option Nat :=
  if s ≠ [] ∧ s.all (·.isDigit) then
    let n := s.foldl (fun acc c => acc * 10 + (c.toNat - '0'.toNat)) 0
    if n < 2 ^ 64 then some n else none
  else none

/-- `unicode.IsNumber`, restricted to the ASCII fragment (every rune the
repository's flags and tests use is ASCII; non-ASCII Unicode number
categories are not modelled). -/
def unicodeIsNumber (c : Char) : Bool := c.isDigit

/-- `utf8.RuneError` as produced by Go's `string(rune(-17))` conversion used
for the `FirstRune` error sentinel: an invalid rune encodes as U+FFFD. -/
def errRuneChar : Char := '\uFFFD'

/-- `parseSingleArg` from `parse.go`, the total, pure argument classifier. -/
def parseSingleArg (arg : List Char) : ParsedArg :=
  -- minimum length flag is 2 (e.g. "-x")
  if arg.length < 2 then
    { flags := [], param := arg,
      argType := if arg = ['-'] then { AMClear with hyphen := true } else AMClear }
  else
    match arg with
    | '-' :: '-' :: rest =>
      if rest = [] then
        -- nothing after the flag start indicator: the bare double hyphen
        { flags := [], param := ['-', '-'],
          argType := { AMClear with long := true, hyphen := true } }
      else
        let sp := splitEq rest
        -- a single long flag, possibly with an attached '=' parameter
        { flags := sp.1, param := sp.2.getD [],
          argType := { AMClear with flag := true, long := true, param := sp.2.isSome } }
    | '-' :: rest =>
      -- rest ≠ [] here because arg.length ≥ 2
      let sp := splitEq rest
      let param := sp.2.getD []
      match sp.1 with
      | [] =>
        -- the flag text was entirely "=param": FirstRune("") yields the
        -- error rune, which Go renders as U+FFFD in `flags = string(r)`
        { flags := [errRuneChar], param := param,
          argType := { AMClear with flag := true, param := sp.2.isSome } }
      | fr :: ftail =>
        if ftail = [] then
          -- a single short flag
          { flags := [fr], param := param,
            argType := { AMClear with
                         flag := true
                         param := sp.2.isSome
                         number := unicodeIsNumber fr } }
        else
          -- a cluster of short flags, or a number (the -NUM idiom); an
          -- attached parameter rules the -NUM idiom out
          { flags := fr :: ftail, param := param,
            argType := { AMClear with
                         flag := true
                         param := sp.2.isSome
                         cluster := true
                         number := param = [] ∧ (goParseUint64 (fr :: ftail)).isSome } }
    | _ =>
      -- not a flag, must be a param
      { flags := [], param := arg, argType := AMClear }

/-- The four mask invariants stated by the specification, together with
panic-freedom of the five mask predicates. -/
def maskOk (m : ArgMask) : Prop :=
  (m.cluster = true → m.flag = true ∧ m.long = false) ∧
  (m.long = true → m.cluster = false) ∧
  (m.hyphen = true → m.flag = false) ∧
  (m.param = true → m.flag = true ∧ m.hyphen = false) ∧
  (m.isFlagO).isSome = true ∧ (m.isLongFlagO).isSome = true ∧
  (m.isClusterO).isSome = true ∧ (m.hasParamO).isSome = true ∧
  (m.isNonFlagO).isSome = true

theorem isSome_ite_some (c : Prop) [Decidable c] (x y : Bool) :
    (if c then some x else some y).isSome = true := by
  split <;> rfl

/-- Claim C9: for every input string, the mask the argument classifier
returns satisfies the four stated invariants (cluster implies flag and not
long; long implies not cluster; hyphen-only implies not a flag; attached
parameter implies flag and not hyphen-only), so the sanity-check panics
inside the mask predicates `IsFlag`, `IsLongFlag`, `IsCluster`, `HasParam`
and `IsNonFlag` are unreachable on classifier output (each predicate
returns a value rather than panicking). -/
theorem classifier_mask_invariants (arg : List Char) : maskOk (parseSingleArg arg).argType := by
  unfold parseSingleArg
  by_cases h1 : arg.length < 2
  · rw [if_pos h1]
    by_cases h2 : arg = ['-'] <;>
      simp [h2, maskOk, AMClear, ArgMask.isFlagO, ArgMask.isLongFlagO, ArgMask.isClusterO,
        ArgMask.hasParamO, ArgMask.isNonFlagO]
  · rw [if_neg h1]
    split
    · split <;>
        simp [maskOk, AMClear, ArgMask.isFlagO, ArgMask.isLongFlagO, ArgMask.isClusterO,
          ArgMask.hasParamO, ArgMask.isNonFlagO, isSome_ite_some]
    · next rest hne =>
      dsimp only
      rcases hsp : (splitEq rest).1 with _ | ⟨fr, ftail⟩
      · simp [maskOk, AMClear, ArgMask.isFlagO, ArgMask.isLongFlagO, ArgMask.isClusterO,
          ArgMask.hasParamO, ArgMask.isNonFlagO, isSome_ite_some]
      · by_cases hft : ftail = [] <;>
          simp [hft, maskOk, AMClear, ArgMask.isFlagO, ArgMask.isLongFlagO, ArgMask.isClusterO,
            ArgMask.hasParamO, ArgMask.isNonFlagO, isSome_ite_some]
    · simp [maskOk, AMClear, ArgMask.isFlagO, ArgMask.isLongFlagO, ArgMask.isClusterO,
        ArgMask.hasParamO, ArgMask.isNonFlagO]

/-! ## Flag values and the flag record

The current `flag.go` (the `Flag` record with `Short`/`Long` fields, `Set`,
`Test`, `IsBool`, the mutex check and the POSIX toggle globals) is not among
the available sources; the definitions below marked `Modelled from the spec:`
follow §4.4/§6/§3 of the specification, restricted to the closed fragment the
repository's tests exercise: scalar bool / string / unsigned flags, with
optional scalar defaults, repeat control and mutex groups — no callbacks,
aliases, slices, file-source flags, counters or enumerated defaults. -/

/-- The closed value universe of the modelled conversion layer (spec §6). -/
inductive FlagValue : Type where
  | bool (b : Bool)
  | str (s : List Char)
  | uint (n : Nat)
deriving DecidableEq, Repr

/-- Reasons `Flag.Set` can fail in the modelled fragment.  `unknownFlag` is
the nil-receiver case (spec §4.2(b): "if there is no preceding flag, this is
an unknown-flag error"). -/
inductive SetErr : Type where
  | unknownFlag
  | mutexConflict
  | notRepeatable
  | noDefault
  | convError
deriving DecidableEq, Repr

/-- One reported failure, tagged by the `Failf` call site in `parse.go`
(`Flag.Set` returns its error to the caller, which reports it; spec §7). -/
inductive FailEvent : Type where
  | numSetFailed (pos : Nat) (e : SetErr)
  | clusterOptargSetFailed (optarg : List Char) (pos : Nat) (e : SetErr)
  | clusterNilSetFailed (pos : Nat) (e : SetErr)
  | notDefined (flags : List Char) (pos : Nat)
  | numNotDefined (flags : List Char) (pos : Nat)
  | numSetFailed2 (flags : List Char) (pos : Nat) (e : SetErr)
  | paramSetFailed (param : List Char) (pos : Nat) (e : SetErr)
  | eolSetFailed (pos : Nat) (e : SetErr)
  | ddashSetFailed (pos : Nat) (e : SetErr)
  | nilSetFailed (pos : Nat) (e : SetErr)
deriving DecidableEq, Repr

/-- `NoShort`: the zero rune. -/
def NoShort : Char := Char.ofNat 0

/-- `NoLong`: the empty string. -/
def NoLong : List Char := []

/-- One flag's identity, configuration and runtime state (the fragment of the
`Flag` record the claims exercise).  `value` holds the bound target's current
contents; `count` is the occurrence count. -/
structure Flag where
  short : Char
  long : List Char
  value : FlagValue
  defaultVal : Option FlagValue
  count : Nat
  mutexGroups : List (List Char)
  repeatable : Bool
  ignoreRepeats : Bool
deriving DecidableEq, Repr

/-- Association-list primitives for string-keyed Go maps
(`map[string]*Flag` for mutexes). -/
def lookupS {β : Type} (m : List (List Char × β)) (k : List Char) : Option β :=
  match m with
  | [] => none
  | (k0, v) :: r => if k0 = k then some v else lookupS r k

def insertS {β : Type} (m : List (List Char × β)) (k : List Char) (v : β) :
    List (List Char × β) :=
  match m with
  | [] => [(k, v)]
  | (k0, w) :: r => if k0 = k then (k, v) :: r else (k0, w) :: insertS r k v

/-- The flag registry (`FlagSet`, part of `flagset.go`).  Pointer sharing of
`*Flag` between `ShortDict` and `LongTrie` is modelled by indices into
`flags` (the concatenated group `FlagList`s, in registration order).
`failLog` records every report made through `Failf`; `aborted` models the
process having exited/panicked under a non-`Continue` failure policy: once
set, no further state changes happen. -/
structure FlagSet where
  flags : List Flag
  shortDict : List (Char × Nat)
  longTrie : trie.TrieNode Nat
  hasHyphenNumIdiom : Bool
  hasNumberShorts : Bool
  inputArgs : List (List Char)
  outputArgs : List (List Char)
  onFailContinue : Bool
  aborted : Bool
  failLog : List FailEvent
  mutex : List (List Char × Option Nat)

/-- `NewFlagSet()`; `contOnFail = true` corresponds to the
`WithContinueOnFail()` option the tests install. -/
def newFlagSet (contOnFail : Bool) : FlagSet :=
  { flags := []
    shortDict := []
    longTrie := trie.TrieNode.newTrie
    hasHyphenNumIdiom := false
    hasNumberShorts := false
    inputArgs := []
    outputArgs := []
    onFailContinue := contOnFail
    aborted := false
    failLog := []
    mutex := [] }

/-- `FlagSet.Failf`: report through the configurable failure policy.  The
message is recorded in `failLog` (the `Silent` bit suppresses only the
printed text, not the report's consequences); under a policy without the
`Continue` bit the process exits or panics, modelled by freezing the state
via `aborted`. -/
def FlagSet.failf (fs : FlagSet) (e : FailEvent) : FlagSet :=
  if fs.aborted then fs
  else { fs with failLog := fs.failLog ++ [e], aborted := !fs.onFailContinue }

/-- `OutputArgs.Push`. -/
def FlagSet.pushOutput (fs : FlagSet) (s : List Char) : FlagSet :=
  if fs.aborted then fs else { fs with outputArgs := fs.outputArgs ++ [s] }

/-- `InputArgs.Shift()` with the result discarded. -/
def FlagSet.shiftInput (fs : FlagSet) : FlagSet :=
  if fs.aborted then fs else { fs with inputArgs := fs.inputArgs.tail }

/-- `FlagSet.stopParsing` (parse.go): move all remaining input to the output,
optionally discarding the input's first element. -/
def FlagSet.stopParsing (fs : FlagSet) (shift : Bool) : FlagSet :=
  if fs.aborted then fs
  else
    let inp := if shift then fs.inputArgs.tail else fs.inputArgs
    { fs with outputArgs := fs.outputArgs ++ inp, inputArgs := [] }

/-- `FlagSet.LookupShort` (flagset.go). -/
def FlagSet.lookupShort (fs : FlagSet) (r : Char) : Option Nat :=
  if r = NoShort then
    if fs.hasHyphenNumIdiom then lookupA fs.shortDict NoShort else none
  else lookupA fs.shortDict r

/-- `FlagSet.LookupLong` (flagset.go).  For the empty string,
`FirstRune` yields the `ErrRuneEmptyStr` sentinel with an empty tail;
`LookupShort` on that sentinel always returns nil (it is neither `NoShort`
nor a dictionary key, dictionary keys being valid shortcut runes), so the
lookup falls through to the trie. -/
def FlagSet.lookupLong (fs : FlagSet) (long : List Char) : Option Nat :=
  match long with
  | [] => fs.longTrie.get []
  | r :: tail =>
    if tail = [] then
      match fs.lookupShort r with
      | some f => some f
      | none => fs.longTrie.get long
    else fs.longTrie.get long

/-- The mutex table read: `fs.Mutex[g]` (absent and nil entries coincide). -/
def FlagSet.mutexGet (fs : FlagSet) (g : List Char) : Option Nat :=
  match lookupS fs.mutex g with
  | some (some j) => some j
  | _ => none

/-- Record a claim on every group of a flag (`fs.Mutex[g] = f`). -/
def claimAll (m : List (List Char × Option Nat)) (gs : List (List Char)) (j : Nat) :
    List (List Char × Option Nat) :=
  gs.foldl (fun acc g => insertS acc g (some j)) m

/-- Replace the flag record at an index. -/
def FlagSet.updFlag (fs : FlagSet) (j : Nat) (f : Flag) : FlagSet :=
  { fs with flags := fs.flags.set j f }

/-- `strconv.ParseBool`: exactly the twelve accepted literals. -/
def goParseBool (s : List Char) : Option Bool :=
  if s = "1".toList ∨ s = "t".toList ∨ s = "T".toList ∨ s = "TRUE".toList
      ∨ s = "true".toList ∨ s = "True".toList then some true
  else if s = "0".toList ∨ s = "f".toList ∨ s = "F".toList ∨ s = "FALSE".toList
      ∨ s = "false".toList ∨ s = "False".toList then some false
  else none

/-- Modelled from the spec: `Flag.Set(value, argPos)` (spec §4.4), the
missing current `flag.go`, restricted to the modelled fragment.  A `none`
index is the nil-receiver call `prev.Set(...)` issued by
`disambiguateCluster` when no letter resolved: per §4.2(b) this is an
unknown-flag error (returned to the caller, which reports it).  Otherwise,
in spec order: the mutex check precedes everything (first-claim-wins);
then the occurrence count is incremented; a repeated set of a
non-repeatable flag fails (or is ignored if so configured); a nil value
toggles a boolean against its (possibly defaulted) complement, or
substitutes the configured default, or fails; a string value is handed to
the conversion layer for the bound target's kind.  Failures are returned
to the caller, which reports them through the failure policy (spec §7). -/
def FlagSet.setFlag (fs : FlagSet) (idx : Option Nat) (v : Option (List Char)) (pos : Nat) :
    FlagSet × Option SetErr :=
  if fs.aborted then (fs, none)
  else
    match idx with
    | none => (fs, some .unknownFlag)
    | some j =>
      match fs.flags[j]? with
      | none => (fs, none)
      | some f =>
        if f.mutexGroups.any (fun g => match fs.mutexGet g with
            | some j' => j' ≠ j
            | none => false) then
          (fs, some .mutexConflict)
        else
          let fs := { fs with mutex := claimAll fs.mutex f.mutexGroups j }
          let f := { f with count := f.count + 1 }
          let fs1 := fs.updFlag j f
          if f.count > 1 ∧ ¬f.repeatable then
            (fs1, some .notRepeatable)
          else if f.count > 1 ∧ f.ignoreRepeats then
            (fs1, none)
          else
            match v with
            | none =>
              match f.value with
              | .bool _ =>
                let def0 : Bool := match f.defaultVal with
                  | some (.bool b) => b
                  | _ => false
                (fs1.updFlag j { f with value := .bool (!def0) }, none)
              | _ =>
                match f.defaultVal with
                | some d => (fs1.updFlag j { f with value := d }, none)
                | none => (fs1, some .noDefault)
            | some s =>
              match f.value with
              | .bool _ =>
                match goParseBool s with
                | some b => (fs1.updFlag j { f with value := .bool b }, none)
                | none => (fs1, some .convError)
              | .uint _ =>
                match goParseUint64 s with
                | some n => (fs1.updFlag j { f with value := .uint n }, none)
                | none => (fs1, some .convError)
              | .str _ => (fs1.updFlag j { f with value := .str s }, none)

/-- Modelled from the spec: `Flag.Test(value, argPos)` (spec §4.3 step 5) —
attempt, without committing, to accept the value: the Set algorithm with all
state effects discarded. -/
def FlagSet.testFlag (fs : FlagSet) (idx : Option Nat) (v : Option (List Char)) (pos : Nat) :
    Option SetErr :=
  (fs.setFlag idx v pos).2

/-- Modelled from the spec: `Flag.IsBool()` — the bound target is boolean. -/
def FlagSet.flagIsBool (fs : FlagSet) (j : Nat) : Bool :=
  match fs.flags[j]? with
  | some f => match f.value with | .bool _ => true | _ => false
  | none => false

/-- `IsValidShortcut` (from the available `flag.go`), with the POSIX rejects
for `?` and `W` at their default `true`; ASCII fragment of
`unicode.IsLetter`/`unicode.IsNumber`. -/
def IsValidShortcut (r : Char) : Bool :=
  if r = '?' then false
  else if r = 'W' then false
  else r.isAlpha || r.isDigit

/-- `IsValidLabel` (from the available `flag.go`): length at least two, no
leading hyphen, only letters, numbers and hyphens (ASCII fragment). -/
def IsValidLabel (l : List Char) : Bool :=
  decide (2 ≤ l.length) &&
  (match l with | c :: _ => decide (c ≠ '-') | [] => true) &&
  l.all (fun r => r = '-' || r.isAlpha || r.isDigit)

/-- Modelled from the spec: `IsValidPair` (spec §3, FlagIdentity): at least
one of short/long must be valid, or both are "none" — the reserved `-NUM`
identity. -/
def IsValidPair (s : Char) (l : List Char) : Bool :=
  (s = NoShort && l = NoLong) || IsValidShortcut s || IsValidLabel l

/-- `FlagSet.AddFlag` (flagset.go), mutating state and reporting success.
On an error return the Go code may leave a partially-updated registry (the
trie insertion happens before the shortcut checks); the model keeps those
partial updates.  (One divergence on *failed* registrations: Go's trie then
holds a live `*Flag` pointer, while this model holds an index that is never
appended to `flags`; all claims concern registries whose registrations
succeeded, plus the fact that a conflicting registration fails.) -/
def FlagSet.addFlag (fs : FlagSet) (f : Flag) : FlagSet × Bool :=
  if ¬(IsValidPair f.short f.long) then (fs, false)
  else
    let j := fs.flags.length
    let tr := if f.long ≠ NoLong then fs.longTrie.add f.long j else (fs.longTrie, true)
    if ¬tr.2 then ({ fs with longTrie := tr.1 }, false)
    else
      let fs := { fs with longTrie := tr.1 }
      if f.short ≠ NoShort ∧ (lookupA fs.shortDict f.short).isSome then (fs, false)
      else
        if unicodeIsNumber f.short ∧ fs.hasHyphenNumIdiom then (fs, false)
        else
          let fs := if unicodeIsNumber f.short then { fs with hasNumberShorts := true } else fs
          let fs := if f.short ≠ NoShort ∨ f.long = NoLong then
              { fs with shortDict := insertA fs.shortDict f.short j } else fs
          if f.short = NoShort ∧ f.long = NoLong then
            if fs.hasHyphenNumIdiom then (fs, false)
            else if fs.hasNumberShorts then (fs, false)
            else ({ fs with hasHyphenNumIdiom := true, flags := fs.flags ++ [f] }, true)
          else
            ({ fs with flags := fs.flags ++ [f] }, true)

/-- `FlagSet.Reset` (flagset.go): clear input and output args, release all
mutex claims, and zero the occurrence counts, keeping the flag setup and the
bound values. -/
def FlagSet.Reset (fs : FlagSet) : FlagSet :=
  { fs with
    inputArgs := []
    outputArgs := []
    mutex := fs.mutex.map (fun p => (p.1, (none : Option Nat)))
    flags := fs.flags.map (fun f => { f with count := 0 }) }

/-! ## The parse engine (parse.go) -/

/-- The generic `fs.Lookup` (missing `flag.go`): dispatch on the key's type —
a rune goes to `LookupShort`, a string to `LookupLong`.  The two Lean names
below are the instantiations `parse.go` uses. -/
def FlagSet.lookupR (fs : FlagSet) (r : Char) : Option Nat := fs.lookupShort r

def FlagSet.lookupStr (fs : FlagSet) (long : List Char) : Option Nat := fs.lookupLong long

/-- The letter walk of `FlagSet.disambiguateCluster` (parse.go): `curr` is
the flag resolved for the previous letter (`none` at the start), `rest` the
letters not yet looked at, `flagsFull` the whole cluster (used by the `-NUM`
branch, which sets with the complete string), `param` any `=`-attached text.
Returns the updated state and, when every letter resolved, the last flag
(the caller may feed it a detached argument); `none` means the argument was
fully handled here. -/
def disambiguateClusterGo (flagsFull param : List Char) (m : ArgMask) (pos : Nat) :
    FlagSet → Option Nat → List Char → FlagSet × Option Nat
  | fs, curr, [] => (fs, curr)
  | fs, prev, c :: cs =>
    match fs.lookupR c with
    | none =>
      match (if m.isNumberB && param.isEmpty then fs.lookupR NoShort else none) with
      | some j =>
        let r := fs.setFlag (some j) (some flagsFull) pos
        match r.2 with
        | some e => (r.1.failf (.numSetFailed pos e), none)
        | none => (r.1, none)
      | none =>
        let optarg := (c :: cs) ++ (if param.isEmpty then [] else '=' :: param)
        let r := fs.setFlag prev (some optarg) pos
        match r.2 with
        | some e => (r.1.failf (.clusterOptargSetFailed optarg pos e), none)
        | none => (r.1, none)
    | some j =>
      let fs1 := match prev with
        | some p =>
          let r := fs.setFlag (some p) none pos
          match r.2 with
          | some e => r.1.failf (.clusterNilSetFailed pos e)
          | none => r.1
        | none => fs
      disambiguateClusterGo flagsFull param m pos fs1 (some j) cs

/-- `FlagSet.disambiguateCluster` (parse.go): walk the letters of a cluster,
setting each resolved flag with nil as the next letter also resolves;
an unresolvable letter makes the remaining text an attached option-argument
of the previous flag (or, for an all-digit cluster with the `-NUM` idiom
registered, the whole cluster becomes the `-NUM` flag's argument). -/
def FlagSet.disambiguateCluster (fs : FlagSet) (flags param : List Char) (m : ArgMask)
    (pos : Nat) : FlagSet × Option Nat :=
  disambiguateClusterGo flags param m pos fs none flags

/-- The three process-wide POSIX-strictness toggles of the missing current
`flag.go` (`PosixOperandStop`, `PosixDoubleHyphen`, `PosixEquals`), passed
explicitly instead of as globals.  Modelled from the spec: all default to
POSIX-strict `true`; `doubleHyphen = false` is the GNU behaviour in which a
double-hyphen stops parsing wherever it appears. -/
structure PosixToggles where
  operandStop : Bool
  doubleHyphen : Bool
  equals : Bool
deriving DecidableEq, Repr

/-- The defaults (spec: all POSIX-strict toggles `true`). -/
def posixDefaults : PosixToggles :=
  { operandStop := true, doubleHyphen := true, equals := true }

/-- One fuel-indexed unfolding of the loop in `FlagSet.parse` (parse.go).
Each iteration shifts at least one input argument, so fuel equal to the
input length is enough; `i` is the running argument position. -/
def FlagSet.parseLoop (P : PosixToggles) : Nat → FlagSet → Nat → FlagSet
  | 0, fs, _ => fs
  | fuel + 1, fs, i =>
    if fs.aborted then fs
    else
      match fs.inputArgs with
      | [] => fs
      | arg :: restIn =>
        let fs := { fs with inputArgs := restIn }
        let i := i + 1
        let pa := parseSingleArg arg
        if ¬pa.argType.isFlagB then
          let fs := fs.pushOutput pa.param
          if P.operandStop then fs.stopParsing false
          else FlagSet.parseLoop P fuel fs i
        else if pa.argType.isDoubleHyphenB then
          fs.stopParsing false
        else
          let step : FlagSet × Option (Option Nat) :=
            if pa.argType.isClusterB then
              let r := fs.disambiguateCluster pa.flags pa.param pa.argType i
              match r.2 with
              | none => (r.1, none)
              | some j => (r.1, some (some j))
            else
              match fs.lookupStr pa.flags with
              | some j => (fs, some (some j))
              | none =>
                if ¬pa.argType.isNumberB then
                  (fs.failf (.notDefined pa.flags i), none)
                else
                  match fs.lookupR NoShort with
                  | none => (fs.failf (.numNotDefined pa.flags i), none)
                  | some j =>
                    let r := fs.setFlag (some j) (some pa.flags) i
                    match r.2 with
                    | some e => (r.1.failf (.numSetFailed2 pa.flags i e), none)
                    | none => (r.1, none)
          match step with
          | (fs, none) => FlagSet.parseLoop P fuel fs i
          | (fs, some flagIdx) =>
            if pa.argType.hasParamB then
              let v := if (pa.argType.isShortFlagB || pa.argType.isClusterB) && P.equals
                  then '=' :: pa.param else pa.param
              let r := fs.setFlag flagIdx (some v) i
              let fs := match r.2 with
                | some e => r.1.failf (.paramSetFailed pa.param i e)
                | none => r.1
              FlagSet.parseLoop P fuel fs i
            else
              match fs.inputArgs with
              | [] =>
                let r := fs.setFlag flagIdx none i
                match r.2 with
                | some e => r.1.failf (.eolSetFailed i e)
                | none => r.1
              | next :: _ =>
                let npa := parseSingleArg next
                if ¬npa.argType.isFlagB ∧ npa.argType.isDoubleHyphenB then
                  if ¬P.doubleHyphen then fs.stopParsing true
                  else
                    match fs.testFlag flagIdx (some ['-', '-']) i with
                    | some _ => fs.stopParsing true
                    | none =>
                      let r := fs.setFlag flagIdx (some ['-', '-']) i
                      let fs1 := match r.2 with
                        | some e => r.1.failf (.ddashSetFailed i e)
                        | none => r.1
                      FlagSet.parseLoop P fuel fs1.shiftInput (i + 1)
                else
                  let isB : Bool := match flagIdx with
                    | some j => fs.flagIsBool j
                    | none => false
                  if ¬npa.argType.isFlagB ∧ ¬isB then
                  let r := fs.setFlag flagIdx (some npa.param) i
                  if r.2 = none then FlagSet.parseLoop P fuel r.1.shiftInput (i + 1)
                  else FlagSet.parseLoop P fuel r.1 i
                else
                  let r := fs.setFlag flagIdx none i
                  let fs := match r.2 with
                    | some e => r.1.failf (.nilSetFailed i e)
                    | none => r.1
                  FlagSet.parseLoop P fuel fs i

/-- `FlagSet.parse` (parse.go): run the loop over the whole input.  The Go
function's returned `error` is always nil; the interesting outcome is the
final state. -/
def FlagSet.parse (P : PosixToggles) (fs : FlagSet) : FlagSet :=
  FlagSet.parseLoop P fs.inputArgs.length fs 0

/-- `FlagSet.Parse(arguments)` (parse.go): install the arguments as the
input deque and parse. -/
def FlagSet.Parse (P : PosixToggles) (fs : FlagSet) (arguments : List (List Char)) : FlagSet :=
  FlagSet.parse P { fs with inputArgs := arguments }

/-! ## Concrete registries mirroring the repository's tests -/

/-- A plain scalar flag as `Var`/`NewFlag` (missing current `flag.go`)
constructs it in the modelled fragment: zero-valued bound target, no
default, no mutex groups, not repeatable. -/
def mkFlag (sh : Char) (lg : List Char) (v : FlagValue) : Flag :=
  { short := sh
    long := lg
    value := v
    defaultVal := none
    count := 0
    mutexGroups := []
    repeatable := false
    ignoreRepeats := false }

/-- `Var(..., InMutex(g))`: the same, in one mutex group. -/
def mkFlagMutex (sh : Char) (lg : List Char) (v : FlagValue) (g : List Char) : Flag :=
  { mkFlag sh lg v with mutexGroups := [g] }

/-- Register a list of flags one `AddFlag` at a time. -/
def addAll (fs : FlagSet) (l : List Flag) : FlagSet :=
  l.foldl (fun a f => (a.addFlag f).1) fs

/-- The registry of `TestCluster`/`TestPosixDoubleHyphen`: booleans
`-a`, `-b`, `-c` and string `-s` (short names only; the long names the test
also installs play no part in the claimed behaviour). -/
def regABCS : FlagSet :=
  addAll (newFlagSet true)
    [mkFlag 'a' NoLong (.bool false), mkFlag 'b' NoLong (.bool false),
     mkFlag 'c' NoLong (.bool false), mkFlag 's' NoLong (.str [])]

/-- Booleans `-a`, `-b` and string `-s` (the C4 registry). -/
def regABS : FlagSet :=
  addAll (newFlagSet true)
    [mkFlag 'a' NoLong (.bool false), mkFlag 'b' NoLong (.bool false),
     mkFlag 's' NoLong (.str [])]

/-- One unsigned flag `-n`. -/
def regN : FlagSet :=
  addAll (newFlagSet true) [mkFlag 'n' NoLong (.uint 0)]

/-- The `TestMutexes` registry: booleans `-c` and `-d` sharing mutex group
"pet". -/
def regCD : FlagSet :=
  addAll (newFlagSet true)
    [mkFlagMutex 'c' NoLong (.bool false) ['p', 'e', 't'],
     mkFlagMutex 'd' NoLong (.bool false) ['p', 'e', 't']]

/-- The reserved `-NUM` flag (neither short nor long name), bound to an
unsigned integer. -/
def regNUM : FlagSet :=
  addAll (newFlagSet true) [mkFlag NoShort NoLong (.uint 0)]

/-- A registry whose first registration has the digit short `-7`. -/
def reg7 : FlagSet :=
  addAll (newFlagSet true) [mkFlag '7' NoLong (.uint 0)]

/-- A registry holding exactly one long name. -/
def regColor : FlagSet :=
  addAll (newFlagSet true) [mkFlag NoShort ['c', 'o', 'l', 'o', 'r'] (.str [])]

/-- The current value of the flag registered under a short name. -/
def FlagSet.valueOfShort (fs : FlagSet) (c : Char) : Option FlagValue :=
  match fs.lookupShort c with
  | some j => (fs.flags[j]?).map Flag.value
  | none => none

/-- The current value of the flag at a registration index. -/
def FlagSet.valueAt (fs : FlagSet) (j : Nat) : Option FlagValue :=
  (fs.flags[j]?).map Flag.value

/-! ## Claim theorems over the concrete registries -/

/-- Claim C1: with booleans `a`, `b`, `c` and string `s` registered, parsing
`["-abs", "python"]` sets `a` and `b` true, leaves `c` false and gives `s`
the detached argument `"python"`; parsing `["-abspython"]` does the same with
the argument attached (no separator). -/
theorem cluster_detached_and_attached_argument :
    (let r := FlagSet.Parse posixDefaults regABCS ["-abs".toList, "python".toList]
     r.valueOfShort 'a' = some (.bool true) ∧ r.valueOfShort 'b' = some (.bool true)
       ∧ r.valueOfShort 'c' = some (.bool false)
       ∧ r.valueOfShort 's' = some (.str "python".toList))
    ∧ (let r := FlagSet.Parse posixDefaults regABCS ["-abspython".toList]
       r.valueOfShort 'a' = some (.bool true) ∧ r.valueOfShort 'b' = some (.bool true)
         ∧ r.valueOfShort 'c' = some (.bool false)
         ∧ r.valueOfShort 's' = some (.str "python".toList)) := by
  decide

/-- Claim C3: parsing `["-a", "-s", "--", "-c", "operand"]`.  The spec's
"double-hyphen-always-stops" toggle ON is the Go global
`PosixDoubleHyphen = false` (the source stops at `--` under
`if !PosixDoubleHyphen`, labelled the GNU rule): parsing halts at `--` and
the operands are `["-c", "operand"]`.  With the toggle OFF
(`PosixDoubleHyphen = true`), `--` passes the non-committing `Test` and is
consumed as `s`'s argument; parsing continues (`c` becomes true) and the
operand list is `["operand"]`. -/
theorem double_hyphen_toggle_behavior :
    (let r := FlagSet.Parse { posixDefaults with doubleHyphen := false } regABCS
        ["-a".toList, "-s".toList, "--".toList, "-c".toList, "operand".toList]
     r.outputArgs = ["-c".toList, "operand".toList]
       ∧ r.valueOfShort 'a' = some (.bool true)
       ∧ r.valueOfShort 's' = some (.str [])
       ∧ r.valueOfShort 'c' = some (.bool false))
    ∧ (let r := FlagSet.Parse { posixDefaults with doubleHyphen := true } regABCS
        ["-a".toList, "-s".toList, "--".toList, "-c".toList, "operand".toList]
       r.outputArgs = ["operand".toList]
         ∧ r.valueOfShort 'a' = some (.bool true)
         ∧ r.valueOfShort 's' = some (.str "--".toList)
         ∧ r.valueOfShort 'c' = some (.bool true)) := by
  decide

/-- Claim C4: with booleans `a`, `b` and string `s`, parsing `["-abs=python"]`
sets `a` and `b` in either mode and gives `s` the value `"=python"` when the
`=`-is-part-of-optarg toggle (`PosixEquals`) is on, `"python"` when off. -/
theorem equals_toggle_attached_param :
    (let r := FlagSet.Parse { posixDefaults with equals := true } regABS
        ["-abs=python".toList]
     r.valueOfShort 'a' = some (.bool true) ∧ r.valueOfShort 'b' = some (.bool true)
       ∧ r.valueOfShort 's' = some (.str "=python".toList))
    ∧ (let r := FlagSet.Parse { posixDefaults with equals := false } regABS
        ["-abs=python".toList]
       r.valueOfShort 'a' = some (.bool true) ∧ r.valueOfShort 'b' = some (.bool true)
         ∧ r.valueOfShort 's' = some (.str "python".toList)) := by
  decide

/-- Claim C5: on a registry whose reserved `-NUM` flag is bound to an
unsigned integer, `["-7"]` parses to 7 and `["-371"]` to 371; and the `-NUM`
identity and digit-rune shorts are mutually exclusive: registering `-7`
after `-NUM` fails, as does registering `-NUM` after `-7`. -/
theorem hyphen_num_idiom_parse_and_registration :
    (FlagSet.Parse posixDefaults regNUM ["-7".toList]).valueAt 0 = some (.uint 7)
    ∧ (FlagSet.Parse posixDefaults regNUM ["-371".toList]).valueAt 0 = some (.uint 371)
    ∧ (regNUM.addFlag (mkFlag '7' NoLong (.uint 0))).2 = false
    ∧ (reg7.addFlag (mkFlag NoShort NoLong (.uint 0))).2 = false := by
  decide

/-- Claim C8: with booleans `c` and `d` in mutex group "pet": parsing
`["-c"]` succeeds (`c` true, nothing reported); a second, unreset parse of
`["-d"]` on the same registry is rejected as a mutex conflict (`d` stays
false, `c` keeps its claim); after an explicit `Reset`, parsing `["-d"]`
succeeds. -/
theorem mutex_first_claim_wins_and_reset :
    (let r1 := FlagSet.Parse posixDefaults regCD ["-c".toList]
     (r1.valueOfShort 'c' = some (.bool true) ∧ r1.failLog = [])
     ∧ (let r2 := FlagSet.Parse posixDefaults r1 ["-d".toList]
        r2.valueOfShort 'd' = some (.bool false)
          ∧ r2.valueOfShort 'c' = some (.bool true)
          ∧ r2.failLog = [.eolSetFailed 1 .mutexConflict])
     ∧ (let r3 := FlagSet.Parse posixDefaults r1.Reset ["-d".toList]
        r3.valueOfShort 'd' = some (.bool true) ∧ r3.failLog = [])) := by
  decide

/-- Claim C6: when the cluster disambiguator's very first letter fails to
resolve to a registered flag and the `-NUM` idiom does not handle the text
(no `-NUM` flag registered, or the mask/param rule it out), the remainder is
fed to the nil previous flag, whose `Set` returns unknown-flag; the error is
reported through `Failf` — appended to the failure log, aborting exactly when
the policy lacks Continue — and the disambiguator returns nothing further to
process, with no other kind of abort. -/
theorem cluster_unknown_flag_reported (fs : FlagSet) (c : Char) (cs param : List Char)
    (m : ArgMask) (pos : Nat)
    (h0 : fs.aborted = false)
    (h1 : fs.lookupR c = none)
    (h2 : fs.lookupR NoShort = none ∨ ¬(m.isNumberB ∧ param = [])) :
    (fs.disambiguateCluster (c :: cs) param m pos).2 = none
    ∧ (fs.disambiguateCluster (c :: cs) param m pos).1.failLog
      = fs.failLog ++ [.clusterOptargSetFailed
          ((c :: cs) ++ (if param.isEmpty then [] else '=' :: param)) pos .unknownFlag]
    ∧ (fs.disambiguateCluster (c :: cs) param m pos).1.aborted = !fs.onFailContinue := by
  have hnum : (if m.isNumberB && param.isEmpty then fs.lookupR NoShort else none)
      = none := by
    by_cases hcond : m.isNumberB && param.isEmpty
    · rcases h2 with h2 | h2
      · rw [if_pos hcond, h2]
      · exfalso
        simp only [Bool.and_eq_true, List.isEmpty_iff] at hcond
        exact h2 ⟨hcond.1, hcond.2⟩
    · rw [if_neg hcond]
  have hset : fs.setFlag none
      (some ((c :: cs) ++ (if param.isEmpty then [] else '=' :: param))) pos
      = (fs, some .unknownFlag) := by
    unfold FlagSet.setFlag
    rw [h0]
    simp
  unfold FlagSet.disambiguateCluster
  unfold disambiguateClusterGo
  rw [h1, hnum]
  dsimp only
  rw [hset]
  unfold FlagSet.failf
  rw [h0]
  simp

/-- Claim C2 counterexample: in the trie built from the distinct names "ba",
"bat", "baz", the query "ba" is a proper prefix of two stored names ("bat"
and "baz"), yet `Get` does not return no-match: the exact entry at "ba" wins.
This refutes the claim's second half for queries that are themselves stored
names. -/
theorem exact_key_beats_ambiguity_counterexample :
    (TrieNode.buildTrie TrieNode.newTrie
        [("ba".toList, 0), ("bat".toList, 1), ("baz".toList, 2)]).map
      (fun t => t.get "ba".toList) = some (some 0)
    ∧ 2 ≤ ((["ba".toList, "bat".toList, "baz".toList].filter
        (fun kk => "ba".toList.isPrefixOf kk && !("ba".toList == kk))).length) := by
  decide

/-- Claim C2 (amended): over any trie built by sequential insertion of
distinct names — so in particular the registry's `LongTrie` — (i) for a
stored name L, a query P whose prefix-matches among the stored names are
exactly [L] resolves to L's value, the same value a full-name query returns;
(ii) a query that is **not itself a stored name** and is a proper prefix of
two or more stored names returns no match.  (The original claim omitted the
emphasised condition; `exact_key_beats_ambiguity_counterexample` shows it is
needed.) -/
theorem trie_prefix_lookup_correct {V : Type} {ks : List (List Char × V)}
    {t : trie.TrieNode V}
    (hnd : (ks.map Prod.fst).Nodup)
    (hb : TrieNode.buildTrie TrieNode.newTrie ks = some t) :
    (∀ L v P, (L, v) ∈ ks →
      (ks.map Prod.fst).filter (fun kk => P.isPrefixOf kk) = [L] →
      t.get P = some v ∧ t.get L = some v)
    ∧ (∀ P, P ∉ ks.map Prod.fst →
      2 ≤ ((ks.map Prod.fst).filter
        (fun kk => P.isPrefixOf kk && !(P == kk))).length →
      t.get P = none) := by
  constructor
  · intro L v P hL hfilter
    exact ⟨TrieNode.get_unique_prefix hnd hb hL hfilter, TrieNode.get_full_key hb hL⟩
  · intro P hPnk hlen2
    exact TrieNode.get_ambiguous_prefix hnd hb hPnk hlen2

/-- Witness for C6 at a concrete input: `regABCS` (shorts a, b, c, s) fed the
cluster "xy", whose first letter is unregistered. -/
theorem cluster_unknown_flag_reported_witness :
    (regABCS.disambiguateCluster "xy".toList []
        (parseSingleArg "-xy".toList).argType 1).2 = none
    ∧ (regABCS.disambiguateCluster "xy".toList []
        (parseSingleArg "-xy".toList).argType 1).1.failLog
      = regABCS.failLog ++ [.clusterOptargSetFailed
          ("xy".toList ++ (if ([] : List Char).isEmpty then [] else '=' :: []))
          1 .unknownFlag]
    ∧ (regABCS.disambiguateCluster "xy".toList []
        (parseSingleArg "-xy".toList).argType 1).1.aborted
      = !regABCS.onFailContinue :=
  cluster_unknown_flag_reported regABCS 'x' ['y'] [] (parseSingleArg "-xy".toList).argType 1
    (by decide) (by decide) (Or.inl (by decide))

/-- Witness for C2 at a concrete input: among the stored names "ba", "bat",
"baz", the query "b" (not itself stored, proper prefix of all three) returns
no match, and the query "bat" (prefix of exactly one stored name) resolves to
its value. -/
theorem trie_prefix_lookup_correct_witness :
    ((((TrieNode.newTrie.add "ba".toList 0).1.add "bat".toList 1).1.add
        "baz".toList 2).1 : trie.TrieNode Nat).get "b".toList = none
    ∧ ((((TrieNode.newTrie.add "ba".toList 0).1.add "bat".toList 1).1.add
        "baz".toList 2).1 : trie.TrieNode Nat).get "bat".toList = some 1 := by
  have hb : TrieNode.buildTrie TrieNode.newTrie
      [("ba".toList, 0), ("bat".toList, 1), ("baz".toList, 2)]
      = some ((((TrieNode.newTrie.add "ba".toList 0).1.add "bat".toList 1).1.add
          "baz".toList 2).1 : trie.TrieNode Nat) := by rfl
  have H := trie_prefix_lookup_correct (by decide) hb
  exact ⟨H.2 "b".toList (by decide) (by decide),
    (H.1 "bat".toList 1 "bat".toList (by decide) (by decide)).2⟩

/-- Claim C10: on a trie built from nonempty names, `Get ""` returns the
unique stored value when exactly one name is stored and no match when zero
or at least two are; consequently `LookupLong ""` — reachable from a token
such as "--=value" — resolves to the flag of a registry whose trie holds
exactly one long name. -/
theorem empty_string_lookup {ks : List (List Char × Nat)} {t : trie.TrieNode Nat}
    (hb : TrieNode.buildTrie TrieNode.newTrie ks = some t)
    (hne : ([] : List Char) ∉ ks.map Prod.fst) :
    (∀ k v, ks = [(k, v)] → t.get [] = some v)
    ∧ (ks = [] → t.get [] = none)
    ∧ (2 ≤ ks.length → t.get [] = none)
    ∧ (∀ fs : FlagSet, fs.longTrie = t → ∀ k v, ks = [(k, v)] →
        fs.lookupLong [] = some v) := by
  obtain ⟨p1, p2, p3⟩ := TrieNode.get_nil_of_build hb hne
  refine ⟨p1, p2, p3, ?_⟩
  intro fs hfs k v hks
  show fs.longTrie.get [] = some v
  rw [hfs]
  exact p1 k v hks

/-- Witness for C10 at a concrete input: the registry holding exactly the
long name "color" resolves a long lookup of the empty string to that flag. -/
theorem empty_string_lookup_witness :
    regColor.lookupLong [] = some 0 := by
  have hb : TrieNode.buildTrie TrieNode.newTrie [("color".toList, 0)]
      = some regColor.longTrie := by rfl
  exact (empty_string_lookup hb (by decide)).2.2.2 regColor rfl "color".toList 0 rfl

/-- Claim C7 counterexample: registry with unsigned `-n`, input
`["-n", "abc"]`.  Setting `n` with the detached candidate "abc" fails with a
conversion error; contrary to the claim, the peek step then does NOT consume
the token: nothing is reported through the failure policy at that point, and
the token re-enters processing and ends up as an operand in the output. -/
theorem detached_arg_failure_counterexample :
    let r := FlagSet.Parse posixDefaults regN ["-n".toList, "abc".toList]
    r.valueAt 0 = some (.uint 0) ∧ r.failLog = [] ∧ r.outputArgs = ["abc".toList]
      ∧ r.inputArgs = [] := by
  decide

/-- A token that does not start with a hyphen classifies as a non-flag whose
`param` is the whole token. -/
theorem parseSingleArg_nonHyphen (c : Char) (t : List Char) (hc : c ≠ '-') :
    parseSingleArg (c :: t) = { flags := [], param := c :: t, argType := AMClear } := by
  unfold parseSingleArg
  by_cases h : (c :: t).length < 2
  · rw [if_pos h, if_neg (by simp [hc])]
  · rw [if_neg h]
    split
    · next heq => exact absurd (List.cons.inj heq).1 hc
    · next heq => exact absurd (List.cons.inj heq).1 hc
    · rfl

/-- Claim C7 (amended): in the peek step — next token a non-flag, current
flag not boolean — the engine attempts to set the current flag with the
token, and consumes it exactly when the set succeeds.  On failure this step
consumes nothing and reports nothing: the token stays in the input and is
re-parsed, typically ending as an operand.  Stated for the unsigned registry
`regN` over every next token not starting with a hyphen: when the token
converts, `n` receives its value and no operand is produced; when conversion
fails, `n` keeps its value, nothing is reported, and the very token becomes
an operand. -/
theorem detached_arg_consumed_only_on_success (c : Char) (ts : List Char) (hc : c ≠ '-') :
    (∀ k, goParseUint64 (c :: ts) = some k →
      (FlagSet.Parse posixDefaults regN ["-n".toList, c :: ts]).valueAt 0 = some (.uint k)
      ∧ (FlagSet.Parse posixDefaults regN ["-n".toList, c :: ts]).outputArgs = []
      ∧ (FlagSet.Parse posixDefaults regN ["-n".toList, c :: ts]).failLog = [])
    ∧ (goParseUint64 (c :: ts) = none →
      (FlagSet.Parse posixDefaults regN ["-n".toList, c :: ts]).valueAt 0 = some (.uint 0)
      ∧ (FlagSet.Parse posixDefaults regN ["-n".toList, c :: ts]).outputArgs = [c :: ts]
      ∧ (FlagSet.Parse posixDefaults regN ["-n".toList, c :: ts]).failLog = []) := by
  have hreg : regN = {
      flags := [{ short := 'n', long := [], value := .uint 0, defaultVal := none, count := 0, mutexGroups := [], repeatable := false, ignoreRepeats := false }]
      shortDict := [('n', 0)]
      longTrie := trie.TrieNode.mk none [] []
      hasHyphenNumIdiom := false
      hasNumberShorts := false
      inputArgs := []
      outputArgs := []
      onFailContinue := true
      aborted := false
      failLog := []
      mutex := [] } := rfl
  have hpa : parseSingleArg "-n".toList = {
      flags := ['n']
      param := []
      argType := { flag := true, long := false, cluster := false, param := false, hyphen := false, number := false } } := rfl
  constructor
  · intro k hk
    simp only [FlagSet.Parse, FlagSet.parse]
    rw [hreg]
    simp only [FlagSet.parseLoop, hpa]
    simp [hk, parseSingleArg_nonHyphen c ts hc, AMClear, posixDefaults,
      List.getElem?_cons_zero, List.getElem?_cons_succ, FlagSet.setFlag,
      FlagSet.lookupStr, FlagSet.lookupLong, FlagSet.lookupShort,
      FlagSet.lookupR, FlagSet.flagIsBool, FlagSet.testFlag, FlagSet.failf,
      FlagSet.pushOutput, FlagSet.shiftInput, FlagSet.stopParsing, FlagSet.updFlag,
      FlagSet.valueAt, ArgMask.isFlagB, ArgMask.isDoubleHyphenB, ArgMask.isShortFlagB,
      ArgMask.isClusterB, ArgMask.isNumberB, ArgMask.hasParamB, NoShort, NoLong, lookupA,
      FlagSet.mutexGet, claimAll, lookupS, insertS]
  · intro hk
    simp only [FlagSet.Parse, FlagSet.parse]
    rw [hreg]
    simp only [FlagSet.parseLoop, hpa]
    simp [hk, parseSingleArg_nonHyphen c ts hc, AMClear, posixDefaults,
      List.getElem?_cons_zero, List.getElem?_cons_succ, FlagSet.setFlag,
      FlagSet.lookupStr, FlagSet.lookupLong, FlagSet.lookupShort,
      FlagSet.lookupR, FlagSet.flagIsBool, FlagSet.testFlag, FlagSet.failf,
      FlagSet.pushOutput, FlagSet.shiftInput, FlagSet.stopParsing, FlagSet.updFlag,
      FlagSet.valueAt, ArgMask.isFlagB, ArgMask.isDoubleHyphenB, ArgMask.isShortFlagB,
      ArgMask.isClusterB, ArgMask.isNumberB, ArgMask.hasParamB, NoShort, NoLong, lookupA,
      FlagSet.mutexGet, claimAll, lookupS, insertS]

/-- Witness for the amended C7 at concrete inputs: "12" converts and is
consumed as `n`'s detached argument; "abc" does not convert, is not
consumed by the peek step, and ends as an operand with nothing reported. -/
theorem detached_arg_consumed_only_on_success_witness :
    ((FlagSet.Parse posixDefaults regN ["-n".toList, "12".toList]).valueAt 0
        = some (.uint 12)
      ∧ (FlagSet.Parse posixDefaults regN ["-n".toList, "12".toList]).outputArgs = []
      ∧ (FlagSet.Parse posixDefaults regN ["-n".toList, "12".toList]).failLog = [])
    ∧ ((FlagSet.Parse posixDefaults regN ["-n".toList, "abc".toList]).valueAt 0
        = some (.uint 0)
      ∧ (FlagSet.Parse posixDefaults regN ["-n".toList, "abc".toList]).outputArgs
        = ["abc".toList]
      ∧ (FlagSet.Parse posixDefaults regN ["-n".toList, "abc".toList]).failLog = []) :=
  ⟨(detached_arg_consumed_only_on_success '1' ['2'] (by decide)).1 12 (by decide),
   (detached_arg_consumed_only_on_success 'a' ['b', 'c'] (by decide)).2 (by decide)⟩

/-- Witness for C9 at a concrete input. -/
theorem classifier_mask_invariants_witness :
    maskOk (parseSingleArg "-abs=python".toList).argType :=
  classifier_mask_invariants "-abs=python".toList

end fflag

end FflagProof
